import Mathlib

/-!
Verification of the `@ndk/fs` filesystem-mirroring toolkit
(`src/@ndk/fs/ndk.fs.js`): a depth-first directory-tree walker
(`__walk`), copy and symlink mirror operations built on it
(`__copy`, `__symlink`, `__symlinkFile`) with an optional two-pass
stale-entry pruning reconciliation, and an idempotent recursive
remove.

Modelling conventions.
* A mirrored filesystem region (the subtree rooted at the `src`
  resp. `dest` argument) is an in-memory `Tree`; a path is the
  root-relative list of name segments (`path.join` is list append,
  so the absolute string `join(dest, p)` is represented by the
  relative segment list `p`; `includes`-comparisons of such joined
  strings coincide with comparisons of the relative lists).
* Every Node `fs` primitive the module uses is embedded as a Lean
  function on trees with the same success/error behaviour:
  `mkdir` (recursive and non-recursive), `copyFile`, `symlink`,
  `lstat`/`readlink` (via `Tree.get` on the region), `existsSync`,
  and `rmdir(recursive)` whose recursive mode deletes files as well
  as directories and treats an absent path as success (these
  primitives are the assumed-correct I/O boundary of the module).
* `readdir`-driven traversal is modelled as structural recursion
  over the snapshot of the walked tree.  The visitors of this module
  never mutate a subtree they subsequently descend into (the prune
  visitor deletes an entry only together with returning `false`,
  which skips descent), so the per-level `readdir` of the source and
  the snapshot traversal produce the same visit sequence.
* A visitor (`Walker` callback) is a state transformer that may also
  fail; its `Option Bool` result models the JavaScript return value
  (`none` = `undefined`).  A walk additionally returns the `Call`
  trace: the exact sequence of `await walker(path, dirent)`
  invocations with their results, used to state ordering properties.
* Symlink resolution (`path.resolve`) crosses region boundaries and
  is kept abstract: embeddings take an arbitrary resolver function.
  `copyFile` on a symlinked source entry would likewise read through
  the link outside the mirrored region, so the copy walker treats it
  as outside the model (it fails there; theorems about successful
  copy runs therefore range over link-free sources).
-/

namespace NdkFs

/-- Entry kinds distinguished by `Dirent` in the source
(`isDirectory()`; a symlink entry is not a directory). -/
inductive Kind where
  | dir : Kind
  | file : Kind
  | link : Kind
deriving DecidableEq, Repr

/-- Error taxonomy of the underlying `fs` primitives as used by the
module (`EEXIST`, `ENOENT`, `ENOTDIR`, `EISDIR`, and the TypeError
of calling a non-function walker). -/
inductive Err where
  | AlreadyExists : Err
  | NotFound : Err
  | NotADirectory : Err
  | IsADirectory : Err
  | TypeErr : Err
deriving DecidableEq, Repr

/-- A root-relative path: the list of name segments. -/
abbrev Path := List String

/-- An in-memory filesystem tree: one mirrored region.  Children are
kept in directory-listing enumeration order. -/
inductive Tree where
  | file : String → Tree
  | link : String → Tree
  | dir : List (String × Tree) → Tree

/-- The `Dirent` kind of a node. -/
def Tree.kind : Tree → Kind
  | Tree.file _ => Kind.file
  | Tree.link _ => Kind.link
  | Tree.dir _ => Kind.dir

/-- First child with the given name (directory names are unique on a
real filesystem; lookups take the first match). -/
def findChild : List (String × Tree) → String → Option Tree
  | [], _ => none
  | c :: rest, n => if c.1 = n then some c.2 else findChild rest n

/-- Replace the subtree of the first child with the given name. -/
def replaceFirst : List (String × Tree) → String → Tree → List (String × Tree)
  | [], _, _ => []
  | c :: rest, n, t => if c.1 = n then (c.1, t) :: rest else c :: replaceFirst rest n t

/-- Look up the node at a path (`stat`/`lstat`/`existsSync` within a
region). -/
def Tree.get : Tree → Path → Option Tree
  | t, [] => some t
  | Tree.dir cs, n :: p =>
    match findChild cs n with
    | some c => Tree.get c p
    | none => none
  | _, _ :: _ => none

/-- `rmdir(path, { recursive: true })` within a region: delete the
whole subtree at the path; an absent path is left untouched (the
recursive mode of the primitive reports no error for it). -/
def Tree.removeAt : Tree → Path → Tree
  | t, [] => t
  | Tree.dir cs, [n] => Tree.dir (cs.filter (fun c => c.1 != n))
  | Tree.dir cs, n :: p =>
    match findChild cs n with
    | some t => Tree.dir (replaceFirst cs n (Tree.removeAt t p))
    | none => Tree.dir cs
  | t, _ :: _ => t

/-- `mkdir(path, { recursive })` within a region.  Returns the new
region together with the list of directory paths actually created.
Non-recursive mode fails with `EEXIST` on an existing path and with
`ENOENT` on a missing parent; recursive mode succeeds silently on an
existing directory, fails with `EEXIST` when the path exists as a
non-directory, and creates every missing intermediate directory. -/
def mkdirAt : Bool → Tree → Path → Except Err (Tree × List Path)
  | _, Tree.dir cs, [] => Except.ok (Tree.dir cs, [])
  | _, _, [] => Except.error Err.AlreadyExists
  | r, Tree.dir cs, [n] =>
    match findChild cs n with
    | some (Tree.dir _) =>
      if r then Except.ok (Tree.dir cs, []) else Except.error Err.AlreadyExists
    | some _ => Except.error Err.AlreadyExists
    | none => Except.ok (Tree.dir (cs ++ [(n, Tree.dir [])]), [[n]])
  | r, Tree.dir cs, n :: p =>
    match findChild cs n with
    | some (Tree.dir cs₀) =>
      match mkdirAt r (Tree.dir cs₀) p with
      | Except.error e => Except.error e
      | Except.ok (t', created) =>
        Except.ok (Tree.dir (replaceFirst cs n t'), created.map (n :: ·))
    | some _ => Except.error Err.NotADirectory
    | none =>
      if r then
        match mkdirAt r (Tree.dir []) p with
        | Except.error e => Except.error e
        | Except.ok (t', created) =>
          Except.ok (Tree.dir (cs ++ [(n, t')]), [n] :: created.map (n :: ·))
      else Except.error Err.NotFound
  | _, _, _ :: _ => Except.error Err.NotADirectory

/-- `copyFile(srcFile, destPath)` without `COPYFILE_EXCL`, seen from
the destination region: write the content at the path, overwriting an
existing non-directory entry; the parent must already exist. -/
def writeFileAt : Tree → Path → String → Except Err Tree
  | Tree.dir _, [], _ => Except.error Err.IsADirectory
  | _, [], _ => Except.error Err.NotADirectory
  | Tree.dir cs, [n], c =>
    match findChild cs n with
    | some (Tree.dir _) => Except.error Err.IsADirectory
    | some _ => Except.ok (Tree.dir (replaceFirst cs n (Tree.file c)))
    | none => Except.ok (Tree.dir (cs ++ [(n, Tree.file c)]))
  | Tree.dir cs, n :: p, c =>
    match findChild cs n with
    | some (Tree.dir cs₀) =>
      match writeFileAt (Tree.dir cs₀) p c with
      | Except.error e => Except.error e
      | Except.ok t' => Except.ok (Tree.dir (replaceFirst cs n t'))
    | some _ => Except.error Err.NotADirectory
    | none => Except.error Err.NotFound
  | _, _ :: _, _ => Except.error Err.NotADirectory

/-- `fs.promises.symlink(target, destPath)` within a region: fails
with `EEXIST` when anything exists at the path, with `ENOENT` when
the parent is missing; otherwise creates the link node. -/
def linkAt (target : String) : Tree → Path → Except Err Tree
  | Tree.dir _, [] => Except.error Err.AlreadyExists
  | _, [] => Except.error Err.AlreadyExists
  | Tree.dir cs, [n] =>
    match findChild cs n with
    | some _ => Except.error Err.AlreadyExists
    | none => Except.ok (Tree.dir (cs ++ [(n, Tree.link target)]))
  | Tree.dir cs, n :: p =>
    match findChild cs n with
    | some (Tree.dir cs₀) =>
      match linkAt target (Tree.dir cs₀) p with
      | Except.error e => Except.error e
      | Except.ok t' => Except.ok (Tree.dir (replaceFirst cs n t'))
    | some _ => Except.error Err.NotADirectory
    | none => Except.error Err.NotFound
  | _, _ :: _ => Except.error Err.NotADirectory

/-- `mkdir(dest, mkdirOptions)` for the region root itself:
`none` means `dest` does not exist yet and becomes an empty
directory; an existing directory is accepted only in recursive mode;
an existing non-directory is `EEXIST` either way. -/
def mkdirRegion : Bool → Option Tree → Except Err Tree
  | _, none => Except.ok (Tree.dir [])
  | true, some (Tree.dir cs) => Except.ok (Tree.dir cs)
  | true, some _ => Except.error Err.AlreadyExists
  | false, some _ => Except.error Err.AlreadyExists

/-- Bitmask flag constants of the module. -/
def COPY_EXCL : Nat := 1
/-- Bitmask flag constants of the module. -/
def COPY_RMNONEXISTENT : Nat := 2
/-- Bitmask flag constants of the module. -/
def SYMLINK_EXCL : Nat := 4
/-- Bitmask flag constants of the module. -/
def SYMLINK_RMNONEXISTENT : Nat := 8
/-- Bitmask flag constants of the module. -/
def WALK_FILEFIRST : Nat := 16
/-- Bitmask flag constants of the module. -/
def WRITE_EXCL : Nat := 32

/-- JavaScript truthiness of `flags & bit` (an undefined `flags`
coerces to `0`). -/
def hasFlag (flags bit : Nat) : Bool := flags &&& bit != 0

/-- One `await walker(path, dirent)` invocation: the path and entry
kind it received and the result it returned (`none` = `undefined`). -/
structure Call where
  path : Path
  kind : Kind
  result : Option Bool
deriving DecidableEq, Repr

/-- A `Walker` callback: a fallible state transformer returning the
JavaScript result value. -/
abbrev Visitor (σ : Type) := Path → Kind → σ → Except Err (σ × Option Bool)

/-- The body of `__walk` from the listing of one directory onwards:
iterate over the children in listing order; in `WALK_FILEFIRST`
(post-order) mode descend first and call the walker afterwards,
otherwise call the walker first and descend unless its result is
exactly `false`.  Produces the `Call` trace alongside the final
state. -/
def walkChildren {σ : Type} (ff : Bool) (v : Visitor σ) :
    Path → List (String × Tree) → σ → Except Err (List Call × σ)
  | _, [], s => Except.ok ([], s)
  | b, (n, Tree.dir cs) :: rest, s =>
    if ff then
      match walkChildren ff v (b ++ [n]) cs s with
      | Except.error e => Except.error e
      | Except.ok (c₁, s₁) =>
        match v (b ++ [n]) Kind.dir s₁ with
        | Except.error e => Except.error e
        | Except.ok (s₂, r) =>
          match walkChildren ff v b rest s₂ with
          | Except.error e => Except.error e
          | Except.ok (c₂, s₃) =>
            Except.ok (c₁ ++ ⟨b ++ [n], Kind.dir, r⟩ :: c₂, s₃)
    else
      match v (b ++ [n]) Kind.dir s with
      | Except.error e => Except.error e
      | Except.ok (s₁, r) =>
        if r = some false then
          match walkChildren ff v b rest s₁ with
          | Except.error e => Except.error e
          | Except.ok (c₂, s₂) => Except.ok (⟨b ++ [n], Kind.dir, r⟩ :: c₂, s₂)
        else
          match walkChildren ff v (b ++ [n]) cs s₁ with
          | Except.error e => Except.error e
          | Except.ok (c₁, s₂) =>
            match walkChildren ff v b rest s₂ with
            | Except.error e => Except.error e
            | Except.ok (c₂, s₃) =>
              Except.ok (⟨b ++ [n], Kind.dir, r⟩ :: (c₁ ++ c₂), s₃)
  | b, (n, Tree.file c) :: rest, s =>
    match v (b ++ [n]) Kind.file s with
    | Except.error e => Except.error e
    | Except.ok (s₁, r) =>
      match walkChildren ff v b rest s₁ with
      | Except.error e => Except.error e
      | Except.ok (c₂, s₂) => Except.ok (⟨b ++ [n], Kind.file, r⟩ :: c₂, s₂)
  | b, (n, Tree.link tg) :: rest, s =>
    match v (b ++ [n]) Kind.link s with
    | Except.error e => Except.error e
    | Except.ok (s₁, r) =>
      match walkChildren ff v b rest s₁ with
      | Except.error e => Except.error e
      | Except.ok (c₂, s₂) => Except.ok (⟨b ++ [n], Kind.link, r⟩ :: c₂, s₂)
termination_by _ cs _ => sizeOf cs

/-- `__walk('.', { root, flags, walker })`: `readdir` of the root
(failing on a non-directory root as `readdir` would) followed by the
traversal of its children. -/
def walkRun {σ : Type} (ff : Bool) (v : Visitor σ) (root : Tree) (s : σ) :
    Except Err (List Call × σ) :=
  match root with
  | Tree.dir cs => walkChildren ff v [] cs s
  | _ => Except.error Err.NotADirectory

/-- A JavaScript argument of `walk` as dynamically inspected by
`typeof flags === 'function'`. -/
inductive JsArg (σ : Type) where
  | num : Nat → JsArg σ
  | fn : Visitor σ → JsArg σ
  | undef : JsArg σ

/-- Numeric coercion applied by `flags & WALK_FILEFIRST`
(`undefined` and functions coerce to `0`). -/
def JsArg.toFlags {σ : Type} : JsArg σ → Nat
  | JsArg.num n => n
  | _ => 0

/-- Top-level `walk(path, flags, walker)`: when a function is passed
in the `flags` position the two arguments are swapped, then the
traversal runs with `WALK_FILEFIRST` read off the numeric flags. -/
def walk {σ : Type} (root : Tree) (flagsArg walkerArg : JsArg σ) (s : σ) :
    Except Err (List Call × σ) :=
  let args :=
    match flagsArg with
    | JsArg.fn v => (walkerArg, JsArg.fn v)
    | other => (other, walkerArg)
  match args.2 with
  | JsArg.fn v => walkRun (hasFlag args.1.toFlags WALK_FILEFIRST) v root s
  | _ => Except.error Err.TypeErr

/-- Pre-order enumeration of all entry paths of a forest below a base
path: each entry, directories followed by their subtrees. -/
def prePaths : Path → List (String × Tree) → List Path
  | _, [] => []
  | b, (n, Tree.dir cs) :: rest => (b ++ [n]) :: (prePaths (b ++ [n]) cs ++ prePaths b rest)
  | b, (n, _) :: rest => (b ++ [n]) :: prePaths b rest
termination_by _ cs => sizeOf cs

/-- Post-order enumeration of all entry paths of a forest below a
base path: subtrees precede their directory. -/
def postPaths : Path → List (String × Tree) → List Path
  | _, [] => []
  | b, (n, Tree.dir cs) :: rest => postPaths (b ++ [n]) cs ++ (b ++ [n]) :: postPaths b rest
  | b, (n, _) :: rest => (b ++ [n]) :: postPaths b rest
termination_by _ cs => sizeOf cs

mutual

/-- Well-formedness of a tree as a real directory listing: sibling
names are unique on every level. -/
def treeWf : Tree → Prop
  | Tree.dir cs => (cs.map Prod.fst).Nodup ∧ forestWf cs
  | _ => True

/-- Well-formedness of every tree of a forest. -/
def forestWf : List (String × Tree) → Prop
  | [] => True
  | c :: rest => treeWf c.2 ∧ forestWf rest

end

/-- State of the primary `__copy` pass: the destination region and
the `existentPaths` array of recorded destination paths. -/
structure CopySt where
  dest : Tree
  visited : List Path

/-- The walker of the primary `__copy` pass: record the destination
path when `existentPaths` is active, then `mkdir` mirrored
directories (recursively unless `COPY_EXCL`) and `copyFile` file
contents read from the source region.  A symlinked source entry
reads through the link outside the region and is not modelled. -/
def copyWalker (src : Tree) (excl record : Bool) : Visitor CopySt :=
  fun path kind st =>
    let st := if record then { st with visited := st.visited ++ [path] } else st
    match kind with
    | Kind.dir =>
      match mkdirAt (!excl) st.dest path with
      | Except.error e => Except.error e
      | Except.ok (d, _) => Except.ok ({ st with dest := d }, none)
    | _ =>
      match Tree.get src path with
      | some (Tree.file c) =>
        match writeFileAt st.dest path c with
        | Except.error e => Except.error e
        | Except.ok d => Except.ok ({ st with dest := d }, none)
      | _ => Except.error Err.NotFound

/-- The primary pass of `__copy`: `mkdir(dest, mkdirOptions)`, then
the pre-order walk of the source with `copyWalker`.  Returns the
destination region after the pass and the recorded `existentPaths`
(empty unless `COPY_RMNONEXISTENT`). -/
def copyPrimary (src : Tree) (dest0 : Option Tree) (flags : Nat) :
    Except Err (Tree × List Path) :=
  let excl := hasFlag flags COPY_EXCL
  let record := hasFlag flags COPY_RMNONEXISTENT
  match mkdirRegion (!excl) dest0 with
  | Except.error e => Except.error e
  | Except.ok d0 =>
    match src with
    | Tree.dir cs =>
      match walkChildren false (copyWalker src excl record) [] cs ⟨d0, []⟩ with
      | Except.error e => Except.error e
      | Except.ok (_, st) => Except.ok (st.dest, st.visited)
    | _ => Except.error Err.NotADirectory

/-- The walker of the reconciliation pass (identical in `__copy` and
`__symlink`): keep a recorded destination path, otherwise `remove`
the entry and return `false`. -/
def pruneWalker (visited : List Path) : Visitor Tree :=
  fun path _ st =>
    if path ∈ visited then Except.ok (st, none)
    else Except.ok (st.removeAt path, some false)

/-- The reconciliation pass shared verbatim by `__copy` and
`__symlink`: a second `__walk` over the destination — with no flags,
hence in default pre-order — deleting every path absent from the
recorded set.  The walked tree is the snapshot after the primary
pass; the state is the mutating destination region. -/
def prunePass (mid : Tree) (visited : List Path) : Except Err (List Call × Tree) :=
  walkRun false (pruneWalker visited) mid mid

/-- `__copy(src, dest, flags)` for a directory source: the primary
pass followed, when `existentPaths` is active (the array is truthy
exactly when `COPY_RMNONEXISTENT` is set), by the reconciliation
pass. -/
def __copy (src : Tree) (dest0 : Option Tree) (flags : Nat) : Except Err Tree :=
  match copyPrimary src dest0 flags with
  | Except.error e => Except.error e
  | Except.ok (mid, visited) =>
    if hasFlag flags COPY_RMNONEXISTENT then
      match prunePass mid visited with
      | Except.error e => Except.error e
      | Except.ok (_, fin) => Except.ok fin
    else Except.ok mid

/-- `remove(path)`: `rmdir(path, { recursive: true })` on the region
— deletes the subtree when present and succeeds either way (the
recursive mode of the primitive treats a missing path as success). -/
def removeFs (d : Tree) (p : Path) : Except Err Tree :=
  Except.ok (d.removeAt p)

/-- `path.join(src, ...path)` as a string, for feeding the abstract
resolver. -/
def joinStr (src : String) (p : Path) : String :=
  p.foldl (fun a s => a ++ "/" ++ s) src

/-- Mutation events performed by the single-file symlink operation,
used to state the idempotence (zero-mutation) property. -/
inductive Ev where
  | mkdirEv : Path → Ev
  | removeEv : Path → Ev
  | linkEv : String → Path → Ev
deriving DecidableEq, Repr

/-- `existsSync(dest)` for an entry of the region.  `existsSync`
follows symlinks: a missing entry does not exist, a file or
directory does, and a symlink exists exactly when its target path
exists in the ambient filesystem — modelled by the oracle `ex` on
absolute target strings (a link whose target is absent, a dangling
link, does not exist for `existsSync` even though `lstat` sees
it). -/
def existsSyncAt (ex : String → Bool) (d : Tree) (p : Path) : Bool :=
  match d.get p with
  | none => false
  | some (Tree.link tg) => ex tg
  | some _ => true

/-- `__symlinkFile(src, dest, flags)` at a path of a region,
`resolvedSrc` already resolved; `ex` is the ambient-filesystem
oracle backing `existsSync`.  With `SYMLINK_EXCL` or a destination
that `existsSync` reports absent the link is created unconditionally
(`EEXIST` on collision — also when the entry is a dangling symlink,
which `existsSync` reports absent but which still blocks creation);
otherwise an existing link with the same target is left untouched,
and anything else is removed and the link recreated.  Also returns
the performed mutations. -/
def __symlinkFileAt (ex : String → Bool) (resolvedSrc : String) (flags : Nat)
    (d : Tree) (p : Path) : Except Err (Tree × List Ev) :=
  if hasFlag flags SYMLINK_EXCL || !existsSyncAt ex d p then
    match linkAt resolvedSrc d p with
    | Except.error e => Except.error e
    | Except.ok d' => Except.ok (d', [Ev.linkEv resolvedSrc p])
  else
    match d.get p with
    | some (Tree.link tgt) =>
      if resolvedSrc ≠ tgt then
        match linkAt resolvedSrc (d.removeAt p) p with
        | Except.error e => Except.error e
        | Except.ok d' => Except.ok (d', [Ev.removeEv p, Ev.linkEv resolvedSrc p])
      else Except.ok (d, [])
    | some _ =>
      match linkAt resolvedSrc (d.removeAt p) p with
      | Except.error e => Except.error e
      | Except.ok d' => Except.ok (d', [Ev.removeEv p, Ev.linkEv resolvedSrc p])
    | none => Except.error Err.NotFound

/-- The single-file branch of `symlink(src, dest, flags)`:
`stat(src)` first — the branch is reached only when the resolved
source exists in the ambient filesystem (`ENOENT` otherwise) — then,
unless `SYMLINK_EXCL`, `mkdir(dirname(dest), { recursive: true })`,
then `__symlinkFile`.  The region contains `dest` at path `p`;
events report the directories actually created plus the link-step
mutations. -/
def symlinkSingle (ex : String → Bool) (resolvedSrc : String) (flags : Nat)
    (d : Tree) (p : Path) : Except Err (Tree × List Ev) :=
  if ex resolvedSrc then
    match
      (if hasFlag flags SYMLINK_EXCL then Except.ok (d, [])
       else mkdirAt true d p.dropLast) with
    | Except.error e => Except.error e
    | Except.ok (d₁, created) =>
      match __symlinkFileAt ex resolvedSrc flags d₁ p with
      | Except.error e => Except.error e
      | Except.ok (d₂, evs) => Except.ok (d₂, created.map Ev.mkdirEv ++ evs)
  else Except.error Err.NotFound

/-- State of the primary `__symlink` pass. -/
structure SymSt where
  dest : Tree
  visited : List Path

/-- The walker of the primary `__symlink` pass: record the
destination path when `existentPaths` is active; `mkdir` mirrored
directories (recursively unless `SYMLINK_EXCL`); for every non-
directory entry call `__symlinkFile(join(src, path), destPath)` —
with no flags argument, which coerces to `0`, so the per-file link
creation never sees `SYMLINK_EXCL`. -/
def symlinkWalker (ex : String → Bool) (res : String → String) (src : String)
    (excl record : Bool) : Visitor SymSt :=
  fun path kind st =>
    let st := if record then { st with visited := st.visited ++ [path] } else st
    match kind with
    | Kind.dir =>
      match mkdirAt (!excl) st.dest path with
      | Except.error e => Except.error e
      | Except.ok (d, _) => Except.ok ({ st with dest := d }, none)
    | _ =>
      match __symlinkFileAt ex (res (joinStr src path)) 0 st.dest path with
      | Except.error e => Except.error e
      | Except.ok (d, _) => Except.ok ({ st with dest := d }, none)

/-- The primary pass of `__symlink`: `mkdir(dest, mkdirOptions)`,
then the pre-order walk of the source with `symlinkWalker`.  Returns
the destination region after the pass and the recorded
`existentPaths` (empty unless `SYMLINK_RMNONEXISTENT`). -/
def symlinkPrimary (ex : String → Bool) (res : String → String) (srcTree : Tree)
    (src : String) (dest0 : Option Tree) (flags : Nat) :
    Except Err (Tree × List Path) :=
  let excl := hasFlag flags SYMLINK_EXCL
  let record := hasFlag flags SYMLINK_RMNONEXISTENT
  match mkdirRegion (!excl) dest0 with
  | Except.error e => Except.error e
  | Except.ok d0 =>
    match srcTree with
    | Tree.dir cs =>
      match walkChildren false (symlinkWalker ex res src excl record) [] cs ⟨d0, []⟩ with
      | Except.error e => Except.error e
      | Except.ok (_, st) => Except.ok (st.dest, st.visited)
    | _ => Except.error Err.NotADirectory

/-- `__symlink(src, dest, flags)` for a directory source: same
two-pass structure as `__copy`, substituting link creation for
content duplication — the primary pass followed, when
`existentPaths` is active (exactly when `SYMLINK_RMNONEXISTENT` is
set), by the reconciliation pass. -/
def __symlink (ex : String → Bool) (res : String → String) (srcTree : Tree)
    (src : String) (dest0 : Option Tree) (flags : Nat) : Except Err Tree :=
  match symlinkPrimary ex res srcTree src dest0 flags with
  | Except.error e => Except.error e
  | Except.ok (mid, visited) =>
    if hasFlag flags SYMLINK_RMNONEXISTENT then
      match prunePass mid visited with
      | Except.error e => Except.error e
      | Except.ok (_, fin) => Except.ok fin
    else Except.ok mid

/-- The deletion front of the reconciliation pass: below a base path,
the recorded entries keep their subtree scanned, every unrecorded
entry is deleted whole (its inside is skipped). -/
def delPaths (visited : List Path) : Path → List (String × Tree) → List Path
  | _, [] => []
  | b, (n, t) :: rest =>
    if b ++ [n] ∈ visited then
      (match t with
       | Tree.dir cs => delPaths visited (b ++ [n]) cs
       | _ => []) ++ delPaths visited b rest
    else (b ++ [n]) :: delPaths visited b rest
termination_by _ cs => sizeOf cs

/-! ### Path and child-list lemmas -/

theorem prefixCancel {b x y : Path} : b ++ x <+: b ++ y ↔ x <+: y :=
  List.prefix_append_right_inj b

theorem prefixTotal {x y z : Path} (h₁ : x <+: z) (h₂ : y <+: z) :
    x <+: y ∨ y <+: x :=
  List.prefix_or_prefix_of_prefix h₁ h₂

theorem snocPrefixCons {b : Path} {n n' : String} {q : Path} :
    b ++ [n] <+: b ++ n' :: q ↔ n = n' := by
  rw [prefixCancel, List.cons_prefix_cons]
  simp

theorem appendPrefixAppend {b : Path} {x y : Path} (h : b ++ x <+: b ++ y) : x <+: y :=
  prefixCancel.mp h

theorem longerNotPrefix {x y : Path} (h : y.length < x.length) : ¬ x <+: y := by
  intro hp
  exact absurd hp.length_le (by omega)

theorem findChild_eq_none {cs : List (String × Tree)} {n : String} :
    findChild cs n = none ↔ ∀ c ∈ cs, c.1 ≠ n := by
  induction cs with
  | nil => simp [findChild]
  | cons c rest ih =>
    by_cases h : c.1 = n <;> simp [findChild, h, ih]

theorem findChild_mem {cs : List (String × Tree)} {n : String} {t : Tree}
    (h : findChild cs n = some t) : (n, t) ∈ cs := by
  induction cs with
  | nil => simp [findChild] at h
  | cons c rest ih =>
    by_cases hc : c.1 = n
    · simp [findChild, hc] at h
      subst h; subst hc
      exact List.mem_cons_self _ _
    · simp [findChild, hc] at h
      exact List.mem_cons_of_mem _ (ih h)

theorem findChild_append {cs l : List (String × Tree)} {n : String} :
    findChild (cs ++ l) n =
      match findChild cs n with
      | some t => some t
      | none => findChild l n := by
  induction cs with
  | nil => simp [findChild]
  | cons c rest ih =>
    by_cases hc : c.1 = n <;> simp [findChild, hc, ih]

theorem findChild_append_none {cs : List (String × Tree)} {n : String} {t : Tree}
    (h : findChild cs n = none) :
    findChild (cs ++ [(n, t)]) n = some t := by
  simp [findChild_append, h, findChild]

theorem findChild_replaceFirst_same {cs : List (String × Tree)} {n : String}
    {t t' : Tree} (h : findChild cs n = some t) :
    findChild (replaceFirst cs n t') n = some t' := by
  induction cs with
  | nil => simp [findChild] at h
  | cons c rest ih =>
    by_cases hc : c.1 = n
    · simp [findChild, replaceFirst, hc]
    · simp [findChild, replaceFirst, hc] at h ⊢
      exact ih h

theorem findChild_replaceFirst_other {cs : List (String × Tree)} {n m : String}
    {t' : Tree} (h : m ≠ n) :
    findChild (replaceFirst cs n t') m = findChild cs m := by
  induction cs with
  | nil => simp [replaceFirst, findChild]
  | cons c rest ih =>
    by_cases hc : c.1 = n <;> by_cases hm : c.1 = m <;>
      simp_all [findChild, replaceFirst]

theorem replaceFirst_none {cs : List (String × Tree)} {n : String} {t' : Tree}
    (h : findChild cs n = none) : replaceFirst cs n t' = cs := by
  induction cs with
  | nil => simp [replaceFirst]
  | cons c rest ih =>
    by_cases hc : c.1 = n
    · simp [findChild, hc] at h
    · simp [findChild, hc] at h
      simp [replaceFirst, hc, ih h]

theorem replaceFirst_self {cs : List (String × Tree)} {n : String} {t : Tree}
    (h : findChild cs n = some t) : replaceFirst cs n t = cs := by
  induction cs with
  | nil => simp [findChild] at h
  | cons c rest ih =>
    obtain ⟨cn, ct⟩ := c
    by_cases hc : cn = n
    · simp [findChild, hc] at h
      subst h; subst hc
      simp [replaceFirst]
    · simp [findChild, hc] at h
      simp [replaceFirst, hc, ih h]

theorem findChild_filter_self {cs : List (String × Tree)} {n : String} :
    findChild (cs.filter (fun c => c.1 != n)) n = none := by
  induction cs with
  | nil => simp [findChild]
  | cons c rest ih =>
    by_cases hc : c.1 = n <;> simp [findChild, List.filter_cons, hc, ih, bne_iff_ne]

theorem findChild_filter_other {cs : List (String × Tree)} {n m : String}
    (h : m ≠ n) :
    findChild (cs.filter (fun c => c.1 != n)) m = findChild cs m := by
  induction cs with
  | nil => simp [findChild]
  | cons c rest ih =>
    by_cases hc : c.1 = n <;> by_cases hm : c.1 = m <;>
      simp_all [findChild, List.filter_cons, bne_iff_ne]

/-! ### `Tree.get` lemmas -/

theorem get_append {t : Tree} {a b : Path} :
    t.get (a ++ b) =
      match t.get a with
      | some u => u.get b
      | none => none := by
  induction a generalizing t with
  | nil => simp [Tree.get]
  | cons n a ih =>
    match t with
    | Tree.file c => simp [Tree.get]
    | Tree.link tg => simp [Tree.get]
    | Tree.dir cs =>
      simp only [List.cons_append, Tree.get]
      match findChild cs n with
      | some u => exact ih
      | none => rfl

theorem get_isSome_of_prefix {t : Tree} {q p : Path} (hq : q <+: p)
    (h : t.get p ≠ none) : t.get q ≠ none := by
  obtain ⟨r, rfl⟩ := hq
  rw [get_append] at h
  intro hq
  rw [hq] at h
  exact h rfl

theorem get_singleton_dir {t : Tree} {n : String} {u : Tree}
    (h : t.get [n] = some u) : ∃ cs, t = Tree.dir cs ∧ findChild cs n = some u := by
  match t with
  | Tree.file c => simp [Tree.get] at h
  | Tree.link tg => simp [Tree.get] at h
  | Tree.dir cs =>
    refine ⟨cs, rfl, ?_⟩
    simp only [Tree.get] at h
    match hf : findChild cs n with
    | some w => rw [hf] at h; simpa [Tree.get] using h
    | none => rw [hf] at h; simp at h

theorem get_parent_dir {t : Tree} {p : Path} (hp : p ≠ []) {u : Tree}
    (h : t.get p = some u) :
    ∃ cs, t.get p.dropLast = some (Tree.dir cs) := by
  have hsplit : p = p.dropLast ++ [p.getLast hp] := (List.dropLast_append_getLast hp).symm
  rw [hsplit, get_append] at h
  match hd : t.get p.dropLast with
  | some w =>
    rw [hd] at h
    simp only at h
    obtain ⟨cs, hw, -⟩ := get_singleton_dir h
    exact ⟨cs, by rw [hw]⟩
  | none => rw [hd] at h; simp at h

/-! ### `Tree.removeAt` lemmas -/

theorem filter_of_findChild_none {cs : List (String × Tree)} {n : String}
    (h : findChild cs n = none) : cs.filter (fun c => c.1 != n) = cs := by
  rw [findChild_eq_none] at h
  exact List.filter_eq_self.mpr (fun c hc => by simpa [bne_iff_ne] using h c hc)

theorem removeAt_get_of_prefix {d : Path} (hd : d ≠ []) :
    ∀ {t : Tree} {p : Path}, d <+: p → (t.removeAt d).get p = none := by
  induction d with
  | nil => exact absurd rfl hd
  | cons n d' ih =>
    intro t p hp
    obtain ⟨r, rfl⟩ := hp
    match t with
    | Tree.file c => cases d' <;> simp [Tree.removeAt, Tree.get]
    | Tree.link tg => cases d' <;> simp [Tree.removeAt, Tree.get]
    | Tree.dir cs =>
      cases d' with
      | nil =>
        simp only [Tree.removeAt, List.cons_append, List.nil_append, Tree.get]
        rw [findChild_filter_self]
      | cons m d'' =>
        simp only [Tree.removeAt, List.cons_append, Tree.get]
        match hf : findChild cs n with
        | none => simp [Tree.get, hf]
        | some t₀ =>
          simp only [Tree.get]
          rw [findChild_replaceFirst_same hf]
          exact ih (by simp) ((m :: d'').prefix_append r)

theorem removeAt_get_isSome {d : Path} :
    ∀ {t : Tree} {p : Path}, ¬ d <+: p →
      ((t.removeAt d).get p).isSome = (t.get p).isSome := by
  induction d with
  | nil => exact fun h => absurd (List.nil_prefix) h
  | cons n d' ih =>
    intro t p h
    match t with
    | Tree.file c => cases d' <;> rfl
    | Tree.link tg => cases d' <;> rfl
    | Tree.dir cs =>
      cases d' with
      | nil =>
        match p with
        | [] => rfl
        | m :: p' =>
          have hmn : m ≠ n := by
            intro hh
            exact h (by rw [hh]; exact List.cons_prefix_cons.mpr ⟨rfl, List.nil_prefix⟩)
          simp only [Tree.removeAt, Tree.get]
          rw [findChild_filter_other hmn]
      | cons m' d'' =>
        match hf : findChild cs n with
        | none => simp [Tree.removeAt, hf]
        | some t₀ =>
          match p with
          | [] => simp [Tree.get]
          | m :: p' =>
            by_cases hmn : m = n
            · subst hmn
              have h' : ¬ (m' :: d'') <+: p' := by
                intro hh
                exact h (List.cons_prefix_cons.mpr ⟨rfl, hh⟩)
              simp only [Tree.removeAt, hf, Tree.get]
              rw [findChild_replaceFirst_same hf]
              exact ih h'
            · simp only [Tree.removeAt, hf, Tree.get]
              rw [findChild_replaceFirst_other hmn]

theorem removeAt_absent : ∀ {t : Tree} {p : Path}, t.get p = none → t.removeAt p = t := by
  intro t p
  induction p generalizing t with
  | nil => intro h; simp [Tree.get] at h
  | cons n p' ih =>
    intro h
    match t with
    | Tree.file c => cases p' <;> rfl
    | Tree.link tg => cases p' <;> rfl
    | Tree.dir cs =>
      simp only [Tree.get] at h
      match hf : findChild cs n with
      | none =>
        cases p' with
        | nil => simp [Tree.removeAt, filter_of_findChild_none hf]
        | cons m d'' => simp [Tree.removeAt, hf]
      | some t₀ =>
        rw [hf] at h
        simp only at h
        cases p' with
        | nil => simp [Tree.get] at h
        | cons m d'' =>
          simp only [Tree.removeAt, hf]
          rw [ih h, replaceFirst_self hf]

/-! ### `mkdirAt` and `linkAt` lemmas -/

theorem mkdirAt_noop {q : Path} :
    ∀ {t : Tree} {cs₀ : List (String × Tree)}, t.get q = some (Tree.dir cs₀) →
      mkdirAt true t q = Except.ok (t, []) := by
  induction q with
  | nil =>
    intro t cs₀ h
    simp only [Tree.get] at h
    rw [Option.some.inj h]
    rfl
  | cons n q' ih =>
    intro t cs₀ h
    match t with
    | Tree.file c => simp [Tree.get] at h
    | Tree.link tg => simp [Tree.get] at h
    | Tree.dir cs =>
      simp only [Tree.get] at h
      match hf : findChild cs n with
      | none => rw [hf] at h; simp at h
      | some t₀ =>
        rw [hf] at h
        simp only at h
        cases q' with
        | nil =>
          simp only [Tree.get] at h
          rw [Option.some.inj h] at hf
          simp [mkdirAt, hf]
        | cons m q'' =>
          have ht₀ : ∃ cs₁, t₀ = Tree.dir cs₁ := by
            match t₀ with
            | Tree.file c => simp [Tree.get] at h
            | Tree.link tg => simp [Tree.get] at h
            | Tree.dir cs₁ => exact ⟨cs₁, rfl⟩
          obtain ⟨cs₁, rfl⟩ := ht₀
          simp only [mkdirAt, hf]
          rw [ih h]
          simp [replaceFirst_self hf]

theorem linkAt_present {r : String} :
    ∀ {t : Tree} {p : Path}, t.get p ≠ none →
      linkAt r t p = Except.error Err.AlreadyExists := by
  intro t p
  induction p generalizing t with
  | nil =>
    intro _
    match t with
    | Tree.file c => rfl
    | Tree.link tg => rfl
    | Tree.dir cs => rfl
  | cons n p' ih =>
    intro h
    match t with
    | Tree.file c => simp [Tree.get] at h
    | Tree.link tg => simp [Tree.get] at h
    | Tree.dir cs =>
      simp only [Tree.get] at h
      match hf : findChild cs n with
      | none => rw [hf] at h; simp at h
      | some t₀ =>
        rw [hf] at h
        simp only at h
        cases p' with
        | nil => simp [linkAt, hf]
        | cons m p'' =>
          match t₀ with
          | Tree.file c => simp [Tree.get] at h
          | Tree.link tg => simp [Tree.get] at h
          | Tree.dir cs₁ =>
            simp only [linkAt, hf]
            rw [ih h]

theorem linkAt_no_collision {r : String} :
    ∀ {t : Tree} {p : Path}, t.get p = none →
      linkAt r t p ≠ Except.error Err.AlreadyExists := by
  intro t p
  induction p generalizing t with
  | nil => intro h; simp [Tree.get] at h
  | cons n p' ih =>
    intro h
    match t with
    | Tree.file c => cases p' <;> simp [linkAt]
    | Tree.link tg => cases p' <;> simp [linkAt]
    | Tree.dir cs =>
      simp only [Tree.get] at h
      match hf : findChild cs n with
      | none =>
        cases p' with
        | nil => simp [linkAt, hf]
        | cons m p'' => simp [linkAt, hf]
      | some t₀ =>
        rw [hf] at h
        simp only at h
        cases p' with
        | nil => simp [Tree.get] at h
        | cons m p'' =>
          match t₀ with
          | Tree.file c => simp [linkAt, hf]
          | Tree.link tg => simp [linkAt, hf]
          | Tree.dir cs₁ =>
            simp only [linkAt, hf]
            intro hcontra
            have := ih h
            match hl : linkAt r (Tree.dir cs₁) (m :: p'') with
            | Except.error e =>
              rw [hl] at hcontra
              simp only at hcontra
              rw [hl] at this
              exact this (by rw [(by injection hcontra : e = Err.AlreadyExists)])
            | Except.ok t' => rw [hl] at hcontra; simp at hcontra

theorem linkAt_ok_get {r : String} :
    ∀ {t t' : Tree} {p : Path}, linkAt r t p = Except.ok t' →
      t'.get p = some (Tree.link r) := by
  intro t t' p
  induction p generalizing t t' with
  | nil =>
    intro h
    match t with
    | Tree.file c => simp [linkAt] at h
    | Tree.link tg => simp [linkAt] at h
    | Tree.dir cs => simp [linkAt] at h
  | cons n p' ih =>
    intro h
    match t with
    | Tree.file c => cases p' <;> simp [linkAt] at h
    | Tree.link tg => cases p' <;> simp [linkAt] at h
    | Tree.dir cs =>
      cases p' with
      | nil =>
        match hf : findChild cs n with
        | some u => simp [linkAt, hf] at h
        | none =>
          simp only [linkAt, hf] at h
          have ht' : t' = Tree.dir (cs ++ [(n, Tree.link r)]) := by injection h with hh; exact hh.symm
          subst ht'
          simp only [Tree.get]
          rw [findChild_append_none hf]
      | cons m p'' =>
        match hf : findChild cs n with
        | none => simp [linkAt, hf] at h
        | some (Tree.file c) => simp [linkAt, hf] at h
        | some (Tree.link tg) => simp [linkAt, hf] at h
        | some (Tree.dir cs₁) =>
          simp only [linkAt, hf] at h
          match hl : linkAt r (Tree.dir cs₁) (m :: p'') with
          | Except.error e => rw [hl] at h; simp at h
          | Except.ok u =>
            rw [hl] at h
            simp only at h
            have ht' : t' = Tree.dir (replaceFirst cs n u) := by injection h with hh; exact hh.symm
            subst ht'
            simp only [Tree.get]
            rw [findChild_replaceFirst_same hf]
            exact ih hl

theorem linkAt_create {r : String} :
    ∀ {t : Tree} {p : Path} {cs₀ : List (String × Tree)}, t.get p = none →
      t.get p.dropLast = some (Tree.dir cs₀) →
      ∃ t', linkAt r t p = Except.ok t' := by
  intro t p
  induction p generalizing t with
  | nil => intro cs₀ h _; simp [Tree.get] at h
  | cons n p' ih =>
    intro cs₀ h hpar
    match t with
    | Tree.file c =>
      cases p' with
      | nil => simp [List.dropLast, Tree.get] at hpar
      | cons m p'' => simp [Tree.get] at hpar
    | Tree.link tg =>
      cases p' with
      | nil => simp [List.dropLast, Tree.get] at hpar
      | cons m p'' => simp [Tree.get] at hpar
    | Tree.dir cs =>
      simp only [Tree.get] at h
      cases p' with
      | nil =>
        match hf : findChild cs n with
        | some u => rw [hf] at h; simp [Tree.get] at h
        | none =>
          exact ⟨Tree.dir (cs ++ [(n, Tree.link r)]), by simp [linkAt, hf]⟩
      | cons m p'' =>
        have hdl : (n :: m :: p'').dropLast = n :: (m :: p'').dropLast := rfl
        rw [hdl] at hpar
        simp only [Tree.get] at hpar
        match hf : findChild cs n with
        | none => rw [hf] at hpar; simp at hpar
        | some t₀ =>
          rw [hf] at h hpar
          simp only at h hpar
          have ht₀ : ∃ cs₁, t₀ = Tree.dir cs₁ := by
            match t₀ with
            | Tree.file c =>
              cases hmp : (m :: p'').dropLast with
              | nil => rw [hmp] at hpar; simp [Tree.get] at hpar
              | cons a b => rw [hmp] at hpar; simp [Tree.get] at hpar
            | Tree.link tg =>
              cases hmp : (m :: p'').dropLast with
              | nil => rw [hmp] at hpar; simp [Tree.get] at hpar
              | cons a b => rw [hmp] at hpar; simp [Tree.get] at hpar
            | Tree.dir cs₁ => exact ⟨cs₁, rfl⟩
          obtain ⟨cs₁, rfl⟩ := ht₀
          obtain ⟨u, hu⟩ := ih h hpar
          exact ⟨Tree.dir (replaceFirst cs n u), by simp [linkAt, hf, hu]⟩

/-! ### `prePaths`, `postPaths`, `delPaths` lemmas -/

theorem prefix_of_singleton {e : Path} {n : String} (h : e <+: [n]) :
    e = [] ∨ e = [n] := by
  match e with
  | [] => exact Or.inl rfl
  | x :: e' =>
    rcases List.cons_prefix_cons.mp h with ⟨rfl, h'⟩
    rcases List.prefix_nil.mp h' with rfl
    exact Or.inr rfl

theorem eq_snoc_of_between {b d : Path} {n : String} (h₁ : b <+: d) (h₂ : d ≠ b)
    (h₃ : d <+: b ++ [n]) : d = b ++ [n] := by
  obtain ⟨e, rfl⟩ := h₁
  rcases prefix_of_singleton (prefixCancel.mp h₃) with rfl | rfl
  · exact absurd (by simp) h₂
  · rfl

theorem prePaths_tail_subset {b : Path} {c : String × Tree}
    {rest : List (String × Tree)} {q : Path} (h : q ∈ prePaths b rest) :
    q ∈ prePaths b (c :: rest) := by
  obtain ⟨n, t⟩ := c
  match t with
  | Tree.file s => simp only [prePaths]; exact List.mem_cons_of_mem _ h
  | Tree.link s => simp only [prePaths]; exact List.mem_cons_of_mem _ h
  | Tree.dir cs =>
    simp only [prePaths]
    exact List.mem_cons_of_mem _ (List.mem_append_right _ h)

theorem prePaths_mem_entry {b : Path} :
    ∀ {cs : List (String × Tree)} {e : String × Tree}, e ∈ cs →
      b ++ [e.1] ∈ prePaths b cs := by
  intro cs
  induction cs with
  | nil => intro e h; simp at h
  | cons c rest ih =>
    intro e h
    rcases List.mem_cons.mp h with rfl | h
    · obtain ⟨n, t⟩ := e
      match t with
      | Tree.file s => simp [prePaths]
      | Tree.link s => simp [prePaths]
      | Tree.dir cs₁ => simp [prePaths]
    · exact prePaths_tail_subset (ih h)

theorem prePaths_sub_subset {b : Path} {n : String} {cs₁ : List (String × Tree)} :
    ∀ {cs : List (String × Tree)}, findChild cs n = some (Tree.dir cs₁) →
      ∀ {q : Path}, q ∈ prePaths (b ++ [n]) cs₁ → q ∈ prePaths b cs := by
  intro cs
  induction cs with
  | nil => intro h; simp [findChild] at h
  | cons c rest ih =>
    intro h q hq
    obtain ⟨cn, ct⟩ := c
    by_cases hcn : cn = n
    · subst hcn
      simp only [findChild, if_pos rfl] at h
      rw [(by injection h : ct = Tree.dir cs₁)]
      simp only [prePaths]
      exact List.mem_cons_of_mem _ (List.mem_append_left _ hq)
    · simp only [findChild, if_neg hcn] at h
      exact prePaths_tail_subset (ih h hq)

theorem prePaths_shape :
    ∀ (b : Path) (cs : List (String × Tree)), ∀ q ∈ prePaths b cs,
      ∃ n q', n ∈ cs.map Prod.fst ∧ q = b ++ n :: q' := by
  intro b cs
  induction b, cs using prePaths.induct with
  | case1 b => intro q hq; simp [prePaths] at hq
  | case2 b n cs rest ih₁ ih₂ =>
    intro q hq
    simp only [prePaths, List.mem_cons, List.mem_append] at hq
    rcases hq with rfl | hq | hq
    · exact ⟨n, [], by simp⟩
    · obtain ⟨n', q', -, hq⟩ := ih₁ q hq
      exact ⟨n, n' :: q', by simp, by simp [hq]⟩
    · obtain ⟨n', q', hn', hq⟩ := ih₂ q hq
      exact ⟨n', q', by simp [hn'], hq⟩
  | case3 b n t rest hnd ih =>
    intro q hq
    match t with
    | Tree.dir cs₁ => exact (hnd cs₁ rfl).elim
    | Tree.file s =>
      simp only [prePaths, List.mem_cons] at hq
      rcases hq with rfl | hq
      · exact ⟨n, [], by simp⟩
      · obtain ⟨n', q', hn', hq⟩ := ih q hq
        exact ⟨n', q', by simp [hn'], hq⟩
    | Tree.link s =>
      simp only [prePaths, List.mem_cons] at hq
      rcases hq with rfl | hq
      · exact ⟨n, [], by simp⟩
      · obtain ⟨n', q', hn', hq⟩ := ih q hq
        exact ⟨n', q', by simp [hn'], hq⟩

theorem prePaths_closed :
    ∀ (b : Path) (cs : List (String × Tree)), ∀ q ∈ prePaths b cs,
      ∀ d, b <+: d → d ≠ b → d <+: q → d ∈ prePaths b cs := by
  intro b cs
  induction b, cs using prePaths.induct with
  | case1 b => intro q hq; simp [prePaths] at hq
  | case2 b n cs rest ih₁ ih₂ =>
    intro q hq d hbd hdb hdq
    simp only [prePaths, List.mem_cons, List.mem_append] at hq ⊢
    rcases hq with rfl | hq | hq
    · exact Or.inl (eq_snoc_of_between hbd hdb hdq)
    · obtain ⟨n', q', -, hqe⟩ := prePaths_shape _ _ q hq
      have hq2 : b ++ [n] <+: q := by
        rw [hqe]
        exact List.prefix_append _ _
      rcases prefixTotal hdq hq2 with hd1 | hd2
      · exact Or.inl (eq_snoc_of_between hbd hdb hd1)
      · by_cases hdn : d = b ++ [n]
        · exact Or.inl hdn
        · exact Or.inr (Or.inl (ih₁ q hq d hd2 hdn hdq))
    · exact Or.inr (Or.inr (ih₂ q hq d hbd hdb hdq))
  | case3 b n t rest hnd ih =>
    intro q hq d hbd hdb hdq
    match t with
    | Tree.dir cs₁ => exact (hnd cs₁ rfl).elim
    | Tree.file s =>
      simp only [prePaths, List.mem_cons] at hq ⊢
      rcases hq with rfl | hq
      · exact Or.inl (eq_snoc_of_between hbd hdb hdq)
      · exact Or.inr (ih q hq d hbd hdb hdq)
    | Tree.link s =>
      simp only [prePaths, List.mem_cons] at hq ⊢
      rcases hq with rfl | hq
      · exact Or.inl (eq_snoc_of_between hbd hdb hdq)
      · exact Or.inr (ih q hq d hbd hdb hdq)

theorem prePaths_of_get :
    ∀ {q : Path} {b : Path} {cs : List (String × Tree)},
      (Tree.dir cs).get q ≠ none → q ≠ [] → b ++ q ∈ prePaths b cs := by
  intro q
  induction q with
  | nil => intro b cs _ h; exact absurd rfl h
  | cons n q' ih =>
    intro b cs hget _
    simp only [Tree.get] at hget
    match hf : findChild cs n with
    | none => rw [hf] at hget; simp at hget
    | some t₀ =>
      rw [hf] at hget
      simp only at hget
      cases hq' : q' with
      | nil =>
        exact prePaths_mem_entry (findChild_mem hf)
      | cons m q'' =>
        subst hq'
        match t₀ with
        | Tree.file c => simp [Tree.get] at hget
        | Tree.link tg => simp [Tree.get] at hget
        | Tree.dir cs₁ =>
          have hmem := @ih (b ++ [n]) cs₁ hget (by simp)
          have : b ++ n :: m :: q'' = (b ++ [n]) ++ m :: q'' := by simp
          rw [this]
          exact prePaths_sub_subset hf hmem

theorem delPaths_tail_subset {V : List Path} {b : Path} {c : String × Tree}
    {rest : List (String × Tree)} {q : Path} (h : q ∈ delPaths V b rest) :
    q ∈ delPaths V b (c :: rest) := by
  obtain ⟨n, t⟩ := c
  cases t <;> by_cases hv : b ++ [n] ∈ V <;> simp_all [delPaths]

theorem delPaths_mem_entry {V : List Path} {b : Path} :
    ∀ {cs : List (String × Tree)} {e : String × Tree}, e ∈ cs →
      b ++ [e.1] ∉ V → b ++ [e.1] ∈ delPaths V b cs := by
  intro cs
  induction cs with
  | nil => intro e h; simp at h
  | cons c rest ih =>
    intro e h hv
    rcases List.mem_cons.mp h with rfl | h
    · obtain ⟨n, t⟩ := e
      cases t <;> simp_all [delPaths]
    · exact delPaths_tail_subset (ih h hv)

theorem delPaths_sub_subset {V : List Path} {b : Path} {n : String}
    {cs₁ : List (String × Tree)} :
    ∀ {cs : List (String × Tree)}, findChild cs n = some (Tree.dir cs₁) →
      b ++ [n] ∈ V →
      ∀ {q : Path}, q ∈ delPaths V (b ++ [n]) cs₁ → q ∈ delPaths V b cs := by
  intro cs
  induction cs with
  | nil => intro h; simp [findChild] at h
  | cons c rest ih =>
    intro h hv q hq
    obtain ⟨cn, ct⟩ := c
    by_cases hcn : cn = n
    · subst hcn
      simp only [findChild, if_pos rfl] at h
      rw [(by injection h : ct = Tree.dir cs₁)]
      simp only [delPaths, if_pos hv]
      exact List.mem_append_left _ hq
    · simp only [findChild, if_neg hcn] at h
      exact delPaths_tail_subset (ih h hv hq)

theorem delPaths_shape :
    ∀ (V : List Path) (b : Path) (cs : List (String × Tree)),
      ∀ d ∈ delPaths V b cs, d ∉ V ∧ ∃ n q', d = b ++ n :: q' := by
  intro V b cs
  induction b, cs using delPaths.induct with
  | visited => exact V
  | case1 b => intro d hd; simp [delPaths] at hd
  | case2 b n t rest hv ih₁ ih₂ =>
    intro d hd
    match t with
    | Tree.file c =>
      simp only [delPaths, if_pos hv, List.nil_append] at hd
      exact ih₂ d hd
    | Tree.link tg =>
      simp only [delPaths, if_pos hv, List.nil_append] at hd
      exact ih₂ d hd
    | Tree.dir cs₁ =>
      simp only [delPaths, if_pos hv, List.mem_append] at hd
      rcases hd with hd | hd
      · obtain ⟨hnv, n', q', hd⟩ := ih₁ d hd
        exact ⟨hnv, n, n' :: q', by simp [hd]⟩
      · exact ih₂ d hd
  | case3 b n t rest hv ih =>
    intro d hd
    match t with
    | Tree.file c =>
      simp only [delPaths, if_neg hv, List.mem_cons] at hd
      rcases hd with rfl | hd
      · exact ⟨hv, n, [], rfl⟩
      · exact ih d hd
    | Tree.link tg =>
      simp only [delPaths, if_neg hv, List.mem_cons] at hd
      rcases hd with rfl | hd
      · exact ⟨hv, n, [], rfl⟩
      · exact ih d hd
    | Tree.dir cs₁ =>
      simp only [delPaths, if_neg hv, List.mem_cons] at hd
      rcases hd with rfl | hd
      · exact ⟨hv, n, [], rfl⟩
      · exact ih d hd

theorem delPaths_cover :
    ∀ {q : Path} {V : List Path} {b : Path} {cs : List (String × Tree)},
      (Tree.dir cs).get q ≠ none → q ≠ [] →
      (∀ r, r <+: q → r ≠ [] → r ≠ q → b ++ r ∈ V) → b ++ q ∉ V →
      ∃ d ∈ delPaths V b cs, d <+: b ++ q := by
  intro q
  induction q with
  | nil => intro V b cs _ h; exact absurd rfl h
  | cons n q' ih =>
    intro V b cs hget _ hmin hnv
    simp only [Tree.get] at hget
    match hf : findChild cs n with
    | none => rw [hf] at hget; simp at hget
    | some t₀ =>
      rw [hf] at hget
      simp only at hget
      by_cases hv : b ++ [n] ∈ V
      · cases hq' : q' with
        | nil =>
          subst hq'
          exact absurd (by simpa using hv) hnv
        | cons m q'' =>
          subst hq'
          match t₀ with
          | Tree.file c => simp [Tree.get] at hget
          | Tree.link tg => simp [Tree.get] at hget
          | Tree.dir cs₁ =>
            have hmin' : ∀ r, r <+: m :: q'' → r ≠ [] → r ≠ m :: q'' →
                (b ++ [n]) ++ r ∈ V := by
              intro r hr hr0 hrq
              have : b ++ n :: r ∈ V := by
                refine hmin (n :: r) (List.cons_prefix_cons.mpr ⟨rfl, hr⟩) (by simp) ?_
                simp [hrq]
              simpa using this
            have hnv' : (b ++ [n]) ++ m :: q'' ∉ V := by simpa using hnv
            obtain ⟨d, hd, hdp⟩ := ih hget (by simp) hmin' hnv'
            refine ⟨d, delPaths_sub_subset hf hv hd, ?_⟩
            simpa using hdp
      · refine ⟨b ++ [n], delPaths_mem_entry (e := (n, t₀)) (findChild_mem hf) hv, ?_⟩
        have : (n : String) :: q' = [n] ++ q' := rfl
        rw [this, ← List.append_assoc]
        exact List.prefix_append _ _

theorem exists_minimal_not_mem {V : List Path} :
    ∀ (N : Nat) (p : Path), p.length ≤ N → p ∉ V → p ≠ [] →
      ∃ q, q <+: p ∧ q ≠ [] ∧ q ∉ V ∧
        ∀ r, r <+: q → r ≠ [] → r ≠ q → r ∈ V := by
  intro N
  induction N with
  | zero =>
    intro p hl _ hne
    exact absurd (List.eq_nil_of_length_eq_zero (Nat.le_zero.mp hl)) hne
  | succ N ih =>
    intro p hl hpv hpne
    by_cases hall : ∀ r, r <+: p → r ≠ [] → r ≠ p → r ∈ V
    · exact ⟨p, List.prefix_rfl, hpne, hpv, hall⟩
    · push_neg at hall
      obtain ⟨r, hrp, hr0, hrne, hrv⟩ := hall
      have hlt : r.length < p.length :=
        Nat.lt_of_le_of_ne hrp.length_le
          (fun hh => hrne (hrp.eq_of_length hh))
      obtain ⟨q, hq1, hq2, hq3, hq4⟩ := ih r (by omega) hrv hr0
      exact ⟨q, hq1.trans hrp, hq2, hq3, hq4⟩

/-! ### Well-formedness lemmas -/

theorem treeWf_dir {cs : List (String × Tree)} :
    treeWf (Tree.dir cs) ↔ (cs.map Prod.fst).Nodup ∧ forestWf cs := by
  rw [treeWf]

theorem forestWf_cons {c : String × Tree} {rest : List (String × Tree)} :
    forestWf (c :: rest) ↔ treeWf c.2 ∧ forestWf rest := by
  rw [forestWf]

theorem treeWf_head {n : String} {t : Tree} {rest : List (String × Tree)}
    (h : treeWf (Tree.dir ((n, t) :: rest))) :
    treeWf t ∧ treeWf (Tree.dir rest) ∧ n ∉ rest.map Prod.fst := by
  rw [treeWf_dir] at h
  obtain ⟨hnd, hf⟩ := h
  rw [forestWf_cons] at hf
  simp only [List.map_cons, List.nodup_cons] at hnd
  exact ⟨hf.1, treeWf_dir.mpr ⟨hnd.2, hf.2⟩, hnd.1⟩

/-! ### Walk decomposition lemmas

One-step inversion of `walkChildren` on a successful run, used by all
trace lemmas below. -/

theorem walk_nil {σ : Type} {v : Visitor σ} {b : Path} {s : σ} :
    walkChildren (σ := σ) false v b [] s = Except.ok ([], s) := by
  simp [walkChildren]

theorem walk_post_nil {σ : Type} {v : Visitor σ} {b : Path} {s : σ} :
    walkChildren (σ := σ) true v b [] s = Except.ok ([], s) := by
  simp [walkChildren]

theorem walk_pre_dir_ok {σ : Type} {v : Visitor σ} {b : Path} {n : String}
    {cs rest : List (String × Tree)} {s : σ} {calls : List Call} {s' : σ}
    (h : walkChildren false v b ((n, Tree.dir cs) :: rest) s = Except.ok (calls, s')) :
    ∃ s₁ r, v (b ++ [n]) Kind.dir s = Except.ok (s₁, r) ∧
      ((r = some false ∧ ∃ c₂, walkChildren false v b rest s₁ = Except.ok (c₂, s') ∧
          calls = ⟨b ++ [n], Kind.dir, r⟩ :: c₂) ∨
       (r ≠ some false ∧ ∃ c₁ s₂ c₂,
          walkChildren false v (b ++ [n]) cs s₁ = Except.ok (c₁, s₂) ∧
          walkChildren false v b rest s₂ = Except.ok (c₂, s') ∧
          calls = ⟨b ++ [n], Kind.dir, r⟩ :: (c₁ ++ c₂))) := by
  simp only [walkChildren, Bool.false_eq_true, if_false] at h
  match hv : v (b ++ [n]) Kind.dir s with
  | Except.error e => rw [hv] at h; simp at h
  | Except.ok (s₁, r) =>
    rw [hv] at h
    simp only at h
    by_cases hr : r = some false
    · rw [if_pos hr] at h
      match hrest : walkChildren false v b rest s₁ with
      | Except.error e => rw [hrest] at h; simp at h
      | Except.ok (c₂, s₂) =>
        rw [hrest] at h
        simp only [Except.ok.injEq, Prod.mk.injEq] at h
        exact ⟨s₁, r, rfl, Or.inl ⟨hr, c₂, by rw [hrest, h.2], h.1.symm⟩⟩
    · rw [if_neg hr] at h
      match hcs : walkChildren false v (b ++ [n]) cs s₁ with
      | Except.error e => rw [hcs] at h; simp at h
      | Except.ok (c₁, s₂) =>
        rw [hcs] at h
        simp only at h
        match hrest : walkChildren false v b rest s₂ with
        | Except.error e => rw [hrest] at h; simp at h
        | Except.ok (c₂, s₃) =>
          rw [hrest] at h
          simp only [Except.ok.injEq, Prod.mk.injEq] at h
          exact ⟨s₁, r, rfl, Or.inr ⟨hr, c₁, s₂, c₂, hcs, by rw [hrest, h.2], h.1.symm⟩⟩

theorem walk_pre_file_ok {σ : Type} {v : Visitor σ} {b : Path} {n c : String}
    {rest : List (String × Tree)} {s : σ} {calls : List Call} {s' : σ}
    (h : walkChildren false v b ((n, Tree.file c) :: rest) s = Except.ok (calls, s')) :
    ∃ s₁ r c₂, v (b ++ [n]) Kind.file s = Except.ok (s₁, r) ∧
      walkChildren false v b rest s₁ = Except.ok (c₂, s') ∧
      calls = ⟨b ++ [n], Kind.file, r⟩ :: c₂ := by
  simp only [walkChildren] at h
  match hv : v (b ++ [n]) Kind.file s with
  | Except.error e => rw [hv] at h; simp at h
  | Except.ok (s₁, r) =>
    rw [hv] at h
    simp only at h
    match hrest : walkChildren false v b rest s₁ with
    | Except.error e => rw [hrest] at h; simp at h
    | Except.ok (c₂, s₂) =>
      rw [hrest] at h
      simp only [Except.ok.injEq, Prod.mk.injEq] at h
      exact ⟨s₁, r, c₂, rfl, by rw [hrest, h.2], h.1.symm⟩

theorem walk_pre_link_ok {σ : Type} {v : Visitor σ} {b : Path} {n tg : String}
    {rest : List (String × Tree)} {s : σ} {calls : List Call} {s' : σ}
    (h : walkChildren false v b ((n, Tree.link tg) :: rest) s = Except.ok (calls, s')) :
    ∃ s₁ r c₂, v (b ++ [n]) Kind.link s = Except.ok (s₁, r) ∧
      walkChildren false v b rest s₁ = Except.ok (c₂, s') ∧
      calls = ⟨b ++ [n], Kind.link, r⟩ :: c₂ := by
  simp only [walkChildren] at h
  match hv : v (b ++ [n]) Kind.link s with
  | Except.error e => rw [hv] at h; simp at h
  | Except.ok (s₁, r) =>
    rw [hv] at h
    simp only at h
    match hrest : walkChildren false v b rest s₁ with
    | Except.error e => rw [hrest] at h; simp at h
    | Except.ok (c₂, s₂) =>
      rw [hrest] at h
      simp only [Except.ok.injEq, Prod.mk.injEq] at h
      exact ⟨s₁, r, c₂, rfl, by rw [hrest, h.2], h.1.symm⟩

theorem walk_post_dir_ok {σ : Type} {v : Visitor σ} {b : Path} {n : String}
    {cs rest : List (String × Tree)} {s : σ} {calls : List Call} {s' : σ}
    (h : walkChildren true v b ((n, Tree.dir cs) :: rest) s = Except.ok (calls, s')) :
    ∃ c₁ s₁ s₂ r c₂, walkChildren true v (b ++ [n]) cs s = Except.ok (c₁, s₁) ∧
      v (b ++ [n]) Kind.dir s₁ = Except.ok (s₂, r) ∧
      walkChildren true v b rest s₂ = Except.ok (c₂, s') ∧
      calls = c₁ ++ ⟨b ++ [n], Kind.dir, r⟩ :: c₂ := by
  simp only [walkChildren, if_true] at h
  match hcs : walkChildren true v (b ++ [n]) cs s with
  | Except.error e => rw [hcs] at h; simp at h
  | Except.ok (c₁, s₁) =>
    rw [hcs] at h
    simp only at h
    match hv : v (b ++ [n]) Kind.dir s₁ with
    | Except.error e => rw [hv] at h; simp at h
    | Except.ok (s₂, r) =>
      rw [hv] at h
      simp only at h
      match hrest : walkChildren true v b rest s₂ with
      | Except.error e => rw [hrest] at h; simp at h
      | Except.ok (c₂, s₃) =>
        rw [hrest] at h
        simp only [Except.ok.injEq, Prod.mk.injEq] at h
        exact ⟨c₁, s₁, s₂, r, c₂, rfl, hv, by rw [hrest, h.2], h.1.symm⟩

theorem walk_post_file_ok {σ : Type} {v : Visitor σ} {b : Path} {n c : String}
    {rest : List (String × Tree)} {s : σ} {calls : List Call} {s' : σ}
    (h : walkChildren true v b ((n, Tree.file c) :: rest) s = Except.ok (calls, s')) :
    ∃ s₁ r c₂, v (b ++ [n]) Kind.file s = Except.ok (s₁, r) ∧
      walkChildren true v b rest s₁ = Except.ok (c₂, s') ∧
      calls = ⟨b ++ [n], Kind.file, r⟩ :: c₂ := by
  simp only [walkChildren] at h
  match hv : v (b ++ [n]) Kind.file s with
  | Except.error e => rw [hv] at h; simp at h
  | Except.ok (s₁, r) =>
    rw [hv] at h
    simp only at h
    match hrest : walkChildren true v b rest s₁ with
    | Except.error e => rw [hrest] at h; simp at h
    | Except.ok (c₂, s₂) =>
      rw [hrest] at h
      simp only [Except.ok.injEq, Prod.mk.injEq] at h
      exact ⟨s₁, r, c₂, rfl, by rw [hrest, h.2], h.1.symm⟩

theorem walk_post_link_ok {σ : Type} {v : Visitor σ} {b : Path} {n tg : String}
    {rest : List (String × Tree)} {s : σ} {calls : List Call} {s' : σ}
    (h : walkChildren true v b ((n, Tree.link tg) :: rest) s = Except.ok (calls, s')) :
    ∃ s₁ r c₂, v (b ++ [n]) Kind.link s = Except.ok (s₁, r) ∧
      walkChildren true v b rest s₁ = Except.ok (c₂, s') ∧
      calls = ⟨b ++ [n], Kind.link, r⟩ :: c₂ := by
  simp only [walkChildren] at h
  match hv : v (b ++ [n]) Kind.link s with
  | Except.error e => rw [hv] at h; simp at h
  | Except.ok (s₁, r) =>
    rw [hv] at h
    simp only at h
    match hrest : walkChildren true v b rest s₁ with
    | Except.error e => rw [hrest] at h; simp at h
    | Except.ok (c₂, s₂) =>
      rw [hrest] at h
      simp only [Except.ok.injEq, Prod.mk.injEq] at h
      exact ⟨s₁, r, c₂, rfl, by rw [hrest, h.2], h.1.symm⟩

theorem sizeOf_sub_lt (n : String) (cs rest : List (String × Tree)) :
    sizeOf cs < sizeOf ((n, Tree.dir cs) :: rest) := by
  simp_arith

theorem sizeOf_rest_lt (x : String × Tree) (rest : List (String × Tree)) :
    sizeOf rest < sizeOf (x :: rest) := by
  obtain ⟨n, t⟩ := x
  simp_arith

theorem consPrefixAppend {b : Path} {n n' : String} {q q' : Path} :
    b ++ n :: q <+: b ++ n' :: q' ↔ n = n' ∧ q <+: q' := by
  rw [prefixCancel, List.cons_prefix_cons]

theorem prePaths_head_sub {b : Path} {n : String} {csn rest : List (String × Tree)}
    {q : Path} (h : q ∈ prePaths (b ++ [n]) csn) :
    q ∈ prePaths b ((n, Tree.dir csn) :: rest) := by
  simp only [prePaths]
  exact List.mem_cons_of_mem _ (List.mem_append_left _ h)

/-- Every call of a pre-order traversal is at an enumerated path. -/
theorem walk_pre_calls {σ : Type} {v : Visitor σ} :
    ∀ (N : Nat) (cs : List (String × Tree)), sizeOf cs ≤ N →
      ∀ {b : Path} {s : σ} {calls : List Call} {s' : σ},
        walkChildren false v b cs s = Except.ok (calls, s') →
        ∀ c ∈ calls, c.path ∈ prePaths b cs := by
  intro N
  induction N with
  | zero =>
    intro cs h
    exact absurd h (by cases cs <;> simp_arith)
  | succ N ih =>
    intro cs hsz b s calls s' h c hc
    match cs with
    | [] =>
      rw [walk_nil] at h
      simp only [Except.ok.injEq, Prod.mk.injEq] at h
      rw [← h.1] at hc
      simp at hc
    | (n, Tree.dir csn) :: rest =>
      have hszr : sizeOf rest ≤ N := by
        have := sizeOf_rest_lt ((n, Tree.dir csn)) rest
        omega
      have hszc : sizeOf csn ≤ N := by
        have := sizeOf_sub_lt n csn rest
        omega
      obtain ⟨s₁, r, hv, hbr⟩ := walk_pre_dir_ok h
      rcases hbr with ⟨hr, c₂, hrest, rfl⟩ | ⟨hr, c₁, s₂, c₂, hcs, hrest, rfl⟩
      · rcases List.mem_cons.mp hc with rfl | hc
        · simp [prePaths]
        · exact prePaths_tail_subset (ih rest hszr hrest c hc)
      · rcases List.mem_cons.mp hc with rfl | hc
        · simp [prePaths]
        · rcases List.mem_append.mp hc with hc | hc
          · exact prePaths_head_sub (ih csn hszc hcs c hc)
          · exact prePaths_tail_subset (ih rest hszr hrest c hc)
    | (n, Tree.file cf) :: rest =>
      have hszr : sizeOf rest ≤ N := by
        have := sizeOf_rest_lt ((n, Tree.file cf)) rest
        omega
      obtain ⟨s₁, r, c₂, hv, hrest, rfl⟩ := walk_pre_file_ok h
      rcases List.mem_cons.mp hc with rfl | hc
      · simp [prePaths]
      · exact prePaths_tail_subset (ih rest hszr hrest c hc)
    | (n, Tree.link tg) :: rest =>
      have hszr : sizeOf rest ≤ N := by
        have := sizeOf_rest_lt ((n, Tree.link tg)) rest
        omega
      obtain ⟨s₁, r, c₂, hv, hrest, rfl⟩ := walk_pre_link_ok h
      rcases List.mem_cons.mp hc with rfl | hc
      · simp [prePaths]
      · exact prePaths_tail_subset (ih rest hszr hrest c hc)

/-- Shape of a call path: the base extended by an enumerated sibling
name. -/
theorem walk_pre_shape {σ : Type} {v : Visitor σ} {cs : List (String × Tree)}
    {b : Path} {s : σ} {calls : List Call} {s' : σ}
    (h : walkChildren false v b cs s = Except.ok (calls, s'))
    {c : Call} (hc : c ∈ calls) :
    ∃ n q', n ∈ cs.map Prod.fst ∧ c.path = b ++ n :: q' :=
  prePaths_shape b cs c.path (walk_pre_calls (sizeOf cs) cs (Nat.le_refl _) h c hc)

/-- In a pre-order traversal every listed entry receives a visitor
call with its own kind. -/
theorem walk_pre_heads {σ : Type} {v : Visitor σ} :
    ∀ {cs : List (String × Tree)} {b : Path} {s : σ} {calls : List Call} {s' : σ},
      walkChildren false v b cs s = Except.ok (calls, s') →
      ∀ e ∈ cs, ∃ c ∈ calls, c.path = b ++ [e.1] ∧ c.kind = e.2.kind := by
  intro cs
  induction cs with
  | nil => intro b s calls s' h e he; simp at he
  | cons hd rest ih =>
    intro b s calls s' h e he
    obtain ⟨n, t⟩ := hd
    match t with
    | Tree.dir csn =>
      obtain ⟨s₁, r, hv, hbr⟩ := walk_pre_dir_ok h
      rcases hbr with ⟨hr, c₂, hrest, rfl⟩ | ⟨hr, c₁, s₂, c₂, hcs, hrest, rfl⟩ <;>
        rcases List.mem_cons.mp he with rfl | he
      · exact ⟨⟨b ++ [n], Kind.dir, r⟩, List.mem_cons_self _ _, rfl, rfl⟩
      · obtain ⟨c, hcmem, hcp, hck⟩ := ih hrest e he
        exact ⟨c, List.mem_cons_of_mem _ hcmem, hcp, hck⟩
      · exact ⟨⟨b ++ [n], Kind.dir, r⟩, List.mem_cons_self _ _, rfl, rfl⟩
      · obtain ⟨c, hcmem, hcp, hck⟩ := ih hrest e he
        exact ⟨c, List.mem_cons_of_mem _ (List.mem_append_right _ hcmem), hcp, hck⟩
    | Tree.file cf =>
      obtain ⟨s₁, r, c₂, hv, hrest, rfl⟩ := walk_pre_file_ok h
      rcases List.mem_cons.mp he with rfl | he
      · exact ⟨⟨b ++ [n], Kind.file, r⟩, List.mem_cons_self _ _, rfl, rfl⟩
      · obtain ⟨c, hcmem, hcp, hck⟩ := ih hrest e he
        exact ⟨c, List.mem_cons_of_mem _ hcmem, hcp, hck⟩
    | Tree.link tg =>
      obtain ⟨s₁, r, c₂, hv, hrest, rfl⟩ := walk_pre_link_ok h
      rcases List.mem_cons.mp he with rfl | he
      · exact ⟨⟨b ++ [n], Kind.link, r⟩, List.mem_cons_self _ _, rfl, rfl⟩
      · obtain ⟨c, hcmem, hcp, hck⟩ := ih hrest e he
        exact ⟨c, List.mem_cons_of_mem _ hcmem, hcp, hck⟩

theorem snocAppend {b : Path} {n : String} {x : Path} :
    (b ++ [n]) ++ x = b ++ n :: x := by simp

theorem get_cons_ne {n m : String} {t : Tree} {rest : List (String × Tree)}
    {p : Path} (h : n ≠ m) :
    (Tree.dir ((n, t) :: rest)).get (m :: p) = (Tree.dir rest).get (m :: p) := by
  simp only [Tree.get, findChild, if_neg h]

/-- A `false` result of a pre-order visitor call suppresses every
call strictly inside that entry (on a well-formed listing). -/
theorem walk_pre_skip {σ : Type} {v : Visitor σ} :
    ∀ (N : Nat) (cs : List (String × Tree)), sizeOf cs ≤ N →
      ∀ {b : Path} {s : σ} {calls : List Call} {s' : σ},
        treeWf (Tree.dir cs) →
        walkChildren false v b cs s = Except.ok (calls, s') →
        ∀ c ∈ calls, c.result = some false →
        ∀ c' ∈ calls, c'.path ≠ c.path → ¬ c.path <+: c'.path := by
  intro N
  induction N with
  | zero =>
    intro cs h
    exact absurd h (by cases cs <;> simp_arith)
  | succ N ih =>
    intro cs hsz b s calls s' hwf h c hc hcres c' hc' hne hpre
    match cs with
    | [] =>
      rw [walk_nil] at h
      simp only [Except.ok.injEq, Prod.mk.injEq] at h
      rw [← h.1] at hc
      simp at hc
    | (n, t) :: rest =>
      obtain ⟨hwft, hwfrest, hnn⟩ := treeWf_head hwf
      have hszr : sizeOf rest ≤ N := by
        have := sizeOf_rest_lt ((n, t)) rest
        omega
      match t with
      | Tree.dir csn =>
        have hszc : sizeOf csn ≤ N := by
          have := sizeOf_sub_lt n csn rest
          omega
        obtain ⟨s₁, r, hv, hbr⟩ := walk_pre_dir_ok h
        rcases hbr with ⟨hr, c₂, hrest, rfl⟩ | ⟨hr, c₁, s₂, c₂, hcs, hrest, rfl⟩
        · rcases List.mem_cons.mp hc with rfl | hc <;>
            rcases List.mem_cons.mp hc' with rfl | hc'
          · exact hne rfl
          · obtain ⟨n', q', hn', hp'⟩ := walk_pre_shape hrest hc'
            rw [hp'] at hpre
            exact hnn (snocPrefixCons.mp hpre ▸ hn')
          · obtain ⟨n', q', hn', hp⟩ := walk_pre_shape hrest hc
            rw [hp] at hpre
            have : b ++ [n] = b ++ n :: [] := rfl
            rw [this] at hpre
            exact hnn ((consPrefixAppend.mp hpre).1 ▸ hn')
          · exact ih rest hszr hwfrest hrest c hc hcres c' hc' hne hpre
        · rcases List.mem_cons.mp hc with rfl | hc
          · exact hr hcres
          rcases List.mem_cons.mp hc' with rfl | hc'
          · rcases List.mem_append.mp hc with hcm | hcm
            · obtain ⟨n₁, q₁, hn₁, hp⟩ := walk_pre_shape hcs hcm
              have := hpre.length_le
              rw [hp] at this
              simp at this
            · obtain ⟨n', q', hn', hp⟩ := walk_pre_shape hrest hcm
              rw [hp] at hpre
              have : b ++ [n] = b ++ n :: [] := rfl
              rw [this] at hpre
              exact hnn ((consPrefixAppend.mp hpre).1 ▸ hn')
          rcases List.mem_append.mp hc with hcm | hcm <;>
            rcases List.mem_append.mp hc' with hcm' | hcm'
          · exact ih csn hszc hwft hcs c hcm hcres c' hcm' hne hpre
          · obtain ⟨n₁, q₁, hn₁, hp⟩ := walk_pre_shape hcs hcm
            obtain ⟨n', q', hn', hp'⟩ := walk_pre_shape hrest hcm'
            rw [hp, hp'] at hpre
            rw [snocAppend] at hpre
            exact hnn ((consPrefixAppend.mp hpre).1.symm ▸ hn')
          · obtain ⟨n', q', hn', hp⟩ := walk_pre_shape hrest hcm
            obtain ⟨n₁, q₁, hn₁, hp'⟩ := walk_pre_shape hcs hcm'
            rw [hp, hp'] at hpre
            rw [snocAppend] at hpre
            exact hnn ((consPrefixAppend.mp hpre).1 ▸ hn')
          · exact ih rest hszr hwfrest hrest c hcm hcres c' hcm' hne hpre
      | Tree.file cf =>
        obtain ⟨s₁, r, c₂, hv, hrest, rfl⟩ := walk_pre_file_ok h
        rcases List.mem_cons.mp hc with rfl | hc <;>
          rcases List.mem_cons.mp hc' with rfl | hc'
        · exact hne rfl
        · obtain ⟨n', q', hn', hp'⟩ := walk_pre_shape hrest hc'
          rw [hp'] at hpre
          exact hnn (snocPrefixCons.mp hpre ▸ hn')
        · obtain ⟨n', q', hn', hp⟩ := walk_pre_shape hrest hc
          rw [hp] at hpre
          have : b ++ [n] = b ++ n :: [] := rfl
          rw [this] at hpre
          exact hnn ((consPrefixAppend.mp hpre).1 ▸ hn')
        · exact ih rest hszr hwfrest hrest c hc hcres c' hc' hne hpre
      | Tree.link tg =>
        obtain ⟨s₁, r, c₂, hv, hrest, rfl⟩ := walk_pre_link_ok h
        rcases List.mem_cons.mp hc with rfl | hc <;>
          rcases List.mem_cons.mp hc' with rfl | hc'
        · exact hne rfl
        · obtain ⟨n', q', hn', hp'⟩ := walk_pre_shape hrest hc'
          rw [hp'] at hpre
          exact hnn (snocPrefixCons.mp hpre ▸ hn')
        · obtain ⟨n', q', hn', hp⟩ := walk_pre_shape hrest hc
          rw [hp] at hpre
          have : b ++ [n] = b ++ n :: [] := rfl
          rw [this] at hpre
          exact hnn ((consPrefixAppend.mp hpre).1 ▸ hn')
        · exact ih rest hszr hwfrest hrest c hc hcres c' hc' hne hpre

/-- Unless the visitor returned exactly `false` for a directory call,
every direct child of that directory receives its own visitor call
(on a well-formed listing). -/
theorem walk_pre_descend {σ : Type} {v : Visitor σ} :
    ∀ (N : Nat) (cs : List (String × Tree)), sizeOf cs ≤ N →
      ∀ {b : Path} {s : σ} {calls : List Call} {s' : σ},
        treeWf (Tree.dir cs) →
        walkChildren false v b cs s = Except.ok (calls, s') →
        ∀ c ∈ calls, c.result ≠ some false →
        ∀ q cs', c.path = b ++ q → (Tree.dir cs).get q = some (Tree.dir cs') →
        ∀ e ∈ cs', ∃ c' ∈ calls, c'.path = c.path ++ [e.1] ∧ c'.kind = e.2.kind := by
  intro N
  induction N with
  | zero =>
    intro cs h
    exact absurd h (by cases cs <;> simp_arith)
  | succ N ih =>
    intro cs hsz b s calls s' hwf h c hc hcres q cs' hq hget e he
    match cs with
    | [] =>
      rw [walk_nil] at h
      simp only [Except.ok.injEq, Prod.mk.injEq] at h
      rw [← h.1] at hc
      simp at hc
    | (n, t) :: rest =>
      obtain ⟨hwft, hwfrest, hnn⟩ := treeWf_head hwf
      have hszr : sizeOf rest ≤ N := by
        have := sizeOf_rest_lt ((n, t)) rest
        omega
      match t with
      | Tree.dir csn =>
        have hszc : sizeOf csn ≤ N := by
          have := sizeOf_sub_lt n csn rest
          omega
        obtain ⟨s₁, r, hv, hbr⟩ := walk_pre_dir_ok h
        rcases hbr with ⟨hr, c₂, hrest, rfl⟩ | ⟨hr, c₁, s₂, c₂, hcs, hrest, rfl⟩
        · rcases List.mem_cons.mp hc with rfl | hc
          · exact absurd hr hcres
          · obtain ⟨n', q'₀, hn', hp⟩ := walk_pre_shape hrest hc
            have hq' : q = n' :: q'₀ := List.append_cancel_left (hq ▸ hp)
            have hne : n ≠ n' := fun hh => hnn (hh ▸ hn')
            rw [hq', get_cons_ne hne] at hget
            obtain ⟨c', hc'm, hc'p, hc'k⟩ :=
              ih rest hszr hwfrest hrest c hc hcres (n' :: q'₀) cs'
                (by rw [hq, hq']) hget e he
            exact ⟨c', List.mem_cons_of_mem _ hc'm, hc'p, hc'k⟩
        · rcases List.mem_cons.mp hc with rfl | hc
          · have hq' : q = [n] :=
              (List.append_cancel_left (show b ++ [n] = b ++ q from hq)).symm
            subst hq'
            simp only [Tree.get, findChild, if_pos rfl] at hget
            have hcs' : cs' = csn := (Tree.dir.inj (Option.some.inj hget)).symm
            subst hcs'
            obtain ⟨c', hc'm, hc'p, hc'k⟩ := walk_pre_heads hcs e he
            refine ⟨c', List.mem_cons_of_mem _ (List.mem_append_left _ hc'm), ?_, hc'k⟩
            simpa using hc'p
          rcases List.mem_append.mp hc with hcm | hcm
          · obtain ⟨n₁, q₁, hn₁, hp⟩ := walk_pre_shape hcs hcm
            have hq' : q = n :: n₁ :: q₁ := by
              apply @List.append_cancel_left _ b
              rw [← hq, hp]
              simp
            have hfc : findChild ((n, Tree.dir csn) :: rest) n = some (Tree.dir csn) := by
              simp [findChild]
            rw [hq'] at hget
            simp only [Tree.get, hfc] at hget
            obtain ⟨c', hc'm, hc'p, hc'k⟩ :=
              ih csn hszc hwft hcs c hcm hcres (n₁ :: q₁) cs'
                hp hget e he
            exact ⟨c', List.mem_cons_of_mem _ (List.mem_append_left _ hc'm), hc'p, hc'k⟩
          · obtain ⟨n', q'₀, hn', hp⟩ := walk_pre_shape hrest hcm
            have hq' : q = n' :: q'₀ := List.append_cancel_left (hq ▸ hp)
            have hne : n ≠ n' := fun hh => hnn (hh ▸ hn')
            rw [hq', get_cons_ne hne] at hget
            obtain ⟨c', hc'm, hc'p, hc'k⟩ :=
              ih rest hszr hwfrest hrest c hcm hcres (n' :: q'₀) cs'
                (by rw [hq, hq']) hget e he
            exact ⟨c', List.mem_cons_of_mem _ (List.mem_append_right _ hc'm), hc'p, hc'k⟩
      | Tree.file cf =>
        obtain ⟨s₁, r, c₂, hv, hrest, rfl⟩ := walk_pre_file_ok h
        rcases List.mem_cons.mp hc with rfl | hc
        · have hq' : q = [n] :=
              (List.append_cancel_left (show b ++ [n] = b ++ q from hq)).symm
          subst hq'
          simp only [Tree.get, findChild, if_pos rfl] at hget
          cases hget
        · obtain ⟨n', q'₀, hn', hp⟩ := walk_pre_shape hrest hc
          have hq' : q = n' :: q'₀ := List.append_cancel_left (hq ▸ hp)
          have hne : n ≠ n' := fun hh => hnn (hh ▸ hn')
          rw [hq', get_cons_ne hne] at hget
          obtain ⟨c', hc'm, hc'p, hc'k⟩ :=
            ih rest hszr hwfrest hrest c hc hcres (n' :: q'₀) cs'
              (by rw [hq, hq']) hget e he
          exact ⟨c', List.mem_cons_of_mem _ hc'm, hc'p, hc'k⟩
      | Tree.link tg =>
        obtain ⟨s₁, r, c₂, hv, hrest, rfl⟩ := walk_pre_link_ok h
        rcases List.mem_cons.mp hc with rfl | hc
        · have hq' : q = [n] :=
              (List.append_cancel_left (show b ++ [n] = b ++ q from hq)).symm
          subst hq'
          simp only [Tree.get, findChild, if_pos rfl] at hget
          cases hget
        · obtain ⟨n', q'₀, hn', hp⟩ := walk_pre_shape hrest hc
          have hq' : q = n' :: q'₀ := List.append_cancel_left (hq ▸ hp)
          have hne : n ≠ n' := fun hh => hnn (hh ▸ hn')
          rw [hq', get_cons_ne hne] at hget
          obtain ⟨c', hc'm, hc'p, hc'k⟩ :=
            ih rest hszr hwfrest hrest c hc hcres (n' :: q'₀) cs'
              (by rw [hq, hq']) hget e he
          exact ⟨c', List.mem_cons_of_mem _ hc'm, hc'p, hc'k⟩

/-- In `WALK_FILEFIRST` mode the call-path sequence equals the
post-order enumeration, for every visitor: the results returned by
the visitor have no effect on descent. -/
theorem walk_post_trace {σ : Type} {v : Visitor σ} :
    ∀ (N : Nat) (cs : List (String × Tree)), sizeOf cs ≤ N →
      ∀ {b : Path} {s : σ} {calls : List Call} {s' : σ},
        walkChildren true v b cs s = Except.ok (calls, s') →
        calls.map Call.path = postPaths b cs := by
  intro N
  induction N with
  | zero =>
    intro cs h
    exact absurd h (by cases cs <;> simp_arith)
  | succ N ih =>
    intro cs hsz b s calls s' h
    match cs with
    | [] =>
      rw [walk_post_nil] at h
      simp only [Except.ok.injEq, Prod.mk.injEq] at h
      rw [← h.1]
      simp [postPaths]
    | (n, Tree.dir csn) :: rest =>
      have hszr : sizeOf rest ≤ N := by
        have := sizeOf_rest_lt ((n, Tree.dir csn)) rest
        omega
      have hszc : sizeOf csn ≤ N := by
        have := sizeOf_sub_lt n csn rest
        omega
      obtain ⟨c₁, s₁, s₂, r, c₂, hcs, hv, hrest, rfl⟩ := walk_post_dir_ok h
      simp only [List.map_append, List.map_cons, postPaths]
      rw [ih csn hszc hcs, ih rest hszr hrest]
    | (n, Tree.file cf) :: rest =>
      have hszr : sizeOf rest ≤ N := by
        have := sizeOf_rest_lt ((n, Tree.file cf)) rest
        omega
      obtain ⟨s₁, r, c₂, hv, hrest, rfl⟩ := walk_post_file_ok h
      simp only [List.map_cons, postPaths]
      rw [ih rest hszr hrest]
    | (n, Tree.link tg) :: rest =>
      have hszr : sizeOf rest ≤ N := by
        have := sizeOf_rest_lt ((n, Tree.link tg)) rest
        omega
      obtain ⟨s₁, r, c₂, hv, hrest, rfl⟩ := walk_post_link_ok h
      simp only [List.map_cons, postPaths]
      rw [ih rest hszr hrest]

/-- The post-order enumeration lists the same paths as the pre-order
one. -/
theorem postPaths_mem_iff :
    ∀ (b : Path) (cs : List (String × Tree)) (q : Path),
      q ∈ postPaths b cs ↔ q ∈ prePaths b cs := by
  intro b cs
  induction b, cs using postPaths.induct with
  | case1 b => intro q; simp [postPaths, prePaths]
  | case2 b n cs rest ih₁ ih₂ =>
    intro q
    simp only [postPaths, prePaths, List.mem_append, List.mem_cons, ih₁, ih₂]
    tauto
  | case3 b n t rest hnd ih =>
    intro q
    match t with
    | Tree.dir cs₁ => exact (hnd cs₁ rfl).elim
    | Tree.file s => simp only [postPaths, prePaths, List.mem_cons, ih]
    | Tree.link s => simp only [postPaths, prePaths, List.mem_cons, ih]

theorem postPaths_shape :
    ∀ (b : Path) (cs : List (String × Tree)), ∀ q ∈ postPaths b cs,
      ∃ n q', n ∈ cs.map Prod.fst ∧ q = b ++ n :: q' := by
  intro b cs q hq
  exact prePaths_shape b cs q ((postPaths_mem_iff b cs q).mp hq)

/-- In the post-order enumeration no later path strictly extends an
earlier one: a directory comes only after its whole subtree. -/
theorem postPaths_pairwise :
    ∀ (b : Path) (cs : List (String × Tree)), treeWf (Tree.dir cs) →
      (postPaths b cs).Pairwise (fun x y => ¬ (x <+: y ∧ x ≠ y)) := by
  intro b cs
  induction b, cs using postPaths.induct with
  | case1 b => intro _; simp [postPaths]
  | case2 b n cs rest ih₁ ih₂ =>
    intro hwf
    obtain ⟨hwft, hwfrest, hnn⟩ := treeWf_head hwf
    simp only [postPaths]
    rw [List.pairwise_append]
    refine ⟨ih₁ hwft, ?_, ?_⟩
    · rw [List.pairwise_cons]
      refine ⟨?_, ih₂ hwfrest⟩
      intro y hy ⟨hp, hne⟩
      obtain ⟨n', q', hn', rfl⟩ := postPaths_shape b rest y hy
      exact hnn (snocPrefixCons.mp hp ▸ hn')
    · intro x hx y hy ⟨hp, hne⟩
      obtain ⟨n₁, q₁, hn₁, rfl⟩ := postPaths_shape (b ++ [n]) cs x hx
      rcases List.mem_cons.mp hy with rfl | hy
      · have := hp.length_le
        simp at this
      · obtain ⟨n', q', hn', rfl⟩ := postPaths_shape b rest y hy
        rw [snocAppend] at hp
        exact hnn ((consPrefixAppend.mp hp).1.symm ▸ hn')
  | case3 b n t rest hnd ih =>
    intro hwf
    obtain ⟨hwft, hwfrest, hnn⟩ := treeWf_head hwf
    match t with
    | Tree.dir cs₁ => exact (hnd cs₁ rfl).elim
    | Tree.file s =>
      simp only [postPaths]
      rw [List.pairwise_cons]
      refine ⟨?_, ih hwfrest⟩
      intro y hy ⟨hp, hne⟩
      obtain ⟨n', q', hn', rfl⟩ := postPaths_shape b rest y hy
      exact hnn (snocPrefixCons.mp hp ▸ hn')
    | Tree.link s =>
      simp only [postPaths]
      rw [List.pairwise_cons]
      refine ⟨?_, ih hwfrest⟩
      intro y hy ⟨hp, hne⟩
      obtain ⟨n', q', hn', rfl⟩ := postPaths_shape b rest y hy
      exact hnn (snocPrefixCons.mp hp ▸ hn')

/-! ### Walk construction lemmas and the reconciliation pass -/

theorem walk_pre_dir_build_skip {σ : Type} {v : Visitor σ} {b : Path} {n : String}
    {cs rest : List (String × Tree)} {s s₁ : σ} {c₂ : List Call} {s' : σ}
    (hv : v (b ++ [n]) Kind.dir s = Except.ok (s₁, some false))
    (hrest : walkChildren false v b rest s₁ = Except.ok (c₂, s')) :
    walkChildren false v b ((n, Tree.dir cs) :: rest) s =
      Except.ok (⟨b ++ [n], Kind.dir, some false⟩ :: c₂, s') := by
  simp only [walkChildren, Bool.false_eq_true, if_false, hv, hrest]
  simp

theorem walk_pre_dir_build_go {σ : Type} {v : Visitor σ} {b : Path} {n : String}
    {cs rest : List (String × Tree)} {s s₁ : σ} {r : Option Bool}
    {c₁ : List Call} {s₂ : σ} {c₂ : List Call} {s' : σ}
    (hv : v (b ++ [n]) Kind.dir s = Except.ok (s₁, r)) (hr : r ≠ some false)
    (hcs : walkChildren false v (b ++ [n]) cs s₁ = Except.ok (c₁, s₂))
    (hrest : walkChildren false v b rest s₂ = Except.ok (c₂, s')) :
    walkChildren false v b ((n, Tree.dir cs) :: rest) s =
      Except.ok (⟨b ++ [n], Kind.dir, r⟩ :: (c₁ ++ c₂), s') := by
  simp only [walkChildren, Bool.false_eq_true, if_false, hv, if_neg hr, hcs, hrest]

theorem walk_pre_file_build {σ : Type} {v : Visitor σ} {b : Path} {n c : String}
    {rest : List (String × Tree)} {s s₁ : σ} {r : Option Bool}
    {c₂ : List Call} {s' : σ}
    (hv : v (b ++ [n]) Kind.file s = Except.ok (s₁, r))
    (hrest : walkChildren false v b rest s₁ = Except.ok (c₂, s')) :
    walkChildren false v b ((n, Tree.file c) :: rest) s =
      Except.ok (⟨b ++ [n], Kind.file, r⟩ :: c₂, s') := by
  simp only [walkChildren, hv, hrest]

theorem walk_pre_link_build {σ : Type} {v : Visitor σ} {b : Path} {n tg : String}
    {rest : List (String × Tree)} {s s₁ : σ} {r : Option Bool}
    {c₂ : List Call} {s' : σ}
    (hv : v (b ++ [n]) Kind.link s = Except.ok (s₁, r))
    (hrest : walkChildren false v b rest s₁ = Except.ok (c₂, s')) :
    walkChildren false v b ((n, Tree.link tg) :: rest) s =
      Except.ok (⟨b ++ [n], Kind.link, r⟩ :: c₂, s') := by
  simp only [walkChildren, hv, hrest]

theorem removeAt_get_ne_none {t : Tree} {d p : Path} (hd : d ≠ []) :
    (t.removeAt d).get p ≠ none ↔ (¬ d <+: p ∧ t.get p ≠ none) := by
  by_cases hp : d <+: p
  · simp [ removeAt_get_of_prefix hd hp, hp]
  · have h := removeAt_get_isSome (d := d) (t := t) (p := p) hp
    rw [← Option.isSome_iff_ne_none, ← Option.isSome_iff_ne_none, h]
    simp [hp]

/-- The reconciliation walker never fails. -/
theorem prune_total {V : List Path} :
    ∀ (N : Nat) (cs : List (String × Tree)), sizeOf cs ≤ N →
      ∀ (b : Path) (s : Tree), ∃ calls fin,
        walkChildren false (pruneWalker V) b cs s = Except.ok (calls, fin) := by
  intro N
  induction N with
  | zero =>
    intro cs h
    exact absurd h (by cases cs <;> simp_arith)
  | succ N ih =>
    intro cs hsz b s
    match cs with
    | [] => exact ⟨[], s, walk_nil⟩
    | (n, t) :: rest =>
      have hszr : sizeOf rest ≤ N := by
        have := sizeOf_rest_lt ((n, t)) rest
        omega
      by_cases hfp : b ++ [n] ∈ V
      · match t with
        | Tree.dir csn =>
          have hszc : sizeOf csn ≤ N := by
            have := sizeOf_sub_lt n csn rest
            omega
          obtain ⟨c₁, s₂, hch⟩ := ih csn hszc (b ++ [n]) s
          obtain ⟨c₂, fin, hr⟩ := ih rest hszr b s₂
          have hv : pruneWalker V (b ++ [n]) Kind.dir s = Except.ok (s, none) := by
            simp [pruneWalker, hfp]
          exact ⟨_, fin, walk_pre_dir_build_go hv (by simp) hch hr⟩
        | Tree.file cf =>
          obtain ⟨c₂, fin, hr⟩ := ih rest hszr b s
          have hv : pruneWalker V (b ++ [n]) Kind.file s = Except.ok (s, none) := by
            simp [pruneWalker, hfp]
          exact ⟨_, fin, walk_pre_file_build hv hr⟩
        | Tree.link tg =>
          obtain ⟨c₂, fin, hr⟩ := ih rest hszr b s
          have hv : pruneWalker V (b ++ [n]) Kind.link s = Except.ok (s, none) := by
            simp [pruneWalker, hfp]
          exact ⟨_, fin, walk_pre_link_build hv hr⟩
      · match t with
        | Tree.dir csn =>
          obtain ⟨c₂, fin, hr⟩ := ih rest hszr b (s.removeAt (b ++ [n]))
          have hv : pruneWalker V (b ++ [n]) Kind.dir s =
              Except.ok (s.removeAt (b ++ [n]), some false) := by
            simp [pruneWalker, hfp]
          exact ⟨_, fin, walk_pre_dir_build_skip hv hr⟩
        | Tree.file cf =>
          obtain ⟨c₂, fin, hr⟩ := ih rest hszr b (s.removeAt (b ++ [n]))
          have hv : pruneWalker V (b ++ [n]) Kind.file s =
              Except.ok (s.removeAt (b ++ [n]), some false) := by
            simp [pruneWalker, hfp]
          exact ⟨_, fin, walk_pre_file_build hv hr⟩
        | Tree.link tg =>
          obtain ⟨c₂, fin, hr⟩ := ih rest hszr b (s.removeAt (b ++ [n]))
          have hv : pruneWalker V (b ++ [n]) Kind.link s =
              Except.ok (s.removeAt (b ++ [n]), some false) := by
            simp [pruneWalker, hfp]
          exact ⟨_, fin, walk_pre_link_build hv hr⟩

theorem pruneWalker_ok {V : List Path} {p : Path} {k : Kind} {s s₁ : Tree}
    {r : Option Bool} (h : pruneWalker V p k s = Except.ok (s₁, r)) :
    (p ∈ V ∧ s₁ = s ∧ r = none) ∨
    (p ∉ V ∧ s₁ = s.removeAt p ∧ r = some false) := by
  by_cases hp : p ∈ V
  · simp only [pruneWalker, if_pos hp, Except.ok.injEq, Prod.mk.injEq] at h
    exact Or.inl ⟨hp, h.1.symm, h.2.symm⟩
  · simp only [pruneWalker, if_neg hp, Except.ok.injEq, Prod.mk.injEq] at h
    exact Or.inr ⟨hp, h.1.symm, h.2.symm⟩

/-- Characterization of a successful reconciliation walk: the final
region keeps exactly the entries not under a deleted path; each call
returns `false` exactly at unrecorded paths; unrecorded calls are on
the deletion front. -/
theorem prune_run {V : List Path} :
    ∀ (N : Nat) (cs : List (String × Tree)), sizeOf cs ≤ N →
      ∀ {b : Path} {s : Tree} {calls : List Call} {fin : Tree},
        walkChildren false (pruneWalker V) b cs s = Except.ok (calls, fin) →
        (∀ p, fin.get p ≠ none ↔
          (s.get p ≠ none ∧ ∀ d ∈ delPaths V b cs, ¬ d <+: p)) ∧
        (∀ c ∈ calls, c.result = (if c.path ∈ V then none else some false)) ∧
        (∀ c ∈ calls, c.path ∉ V → c.path ∈ delPaths V b cs) := by
  intro N
  induction N with
  | zero =>
    intro cs h
    exact absurd h (by cases cs <;> simp_arith)
  | succ N ih =>
    intro cs hsz b s calls fin h
    match cs with
    | [] =>
      rw [walk_nil] at h
      simp only [Except.ok.injEq, Prod.mk.injEq] at h
      obtain ⟨h1, h2⟩ := h
      subst h2
      refine ⟨fun p => by simp [delPaths], ?_, ?_⟩ <;>
        · intro c hc
          rw [← h1] at hc
          simp at hc
    | (n, t) :: rest =>
      have hszr : sizeOf rest ≤ N := by
        have := sizeOf_rest_lt ((n, t)) rest
        omega
      match t with
      | Tree.dir csn =>
        have hszc : sizeOf csn ≤ N := by
          have := sizeOf_sub_lt n csn rest
          omega
        obtain ⟨s₁, r, hv, hbr⟩ := walk_pre_dir_ok h
        rcases pruneWalker_ok hv with ⟨hfp, rfl, rfl⟩ | ⟨hfp, rfl, rfl⟩
        · rcases hbr with ⟨hr, -, -, -⟩ | ⟨-, c₁, s₂, c₂, hcs, hrest, rfl⟩
          · cases hr
          obtain ⟨hchar₁, hres₁, hdel₁⟩ := ih csn hszc hcs
          obtain ⟨hchar₂, hres₂, hdel₂⟩ := ih rest hszr hrest
          refine ⟨?_, ?_, ?_⟩
          · intro p
            rw [hchar₂ p, hchar₁ p]
            simp only [delPaths, if_pos hfp, List.mem_append]
            constructor
            · rintro ⟨⟨hs, h1⟩, h2⟩
              exact ⟨hs, fun d hd => hd.elim (h1 d) (h2 d)⟩
            · rintro ⟨hs, h12⟩
              exact ⟨⟨hs, fun d hd => h12 d (Or.inl hd)⟩,
                fun d hd => h12 d (Or.inr hd)⟩
          · intro c hc
            rcases List.mem_cons.mp hc with rfl | hc
            · simp [if_pos hfp]
            rcases List.mem_append.mp hc with hc | hc
            · exact hres₁ c hc
            · exact hres₂ c hc
          · intro c hc hcv
            rcases List.mem_cons.mp hc with rfl | hc
            · exact absurd hfp hcv
            simp only [delPaths, if_pos hfp, List.mem_append]
            rcases List.mem_append.mp hc with hc | hc
            · exact Or.inl (hdel₁ c hc hcv)
            · exact Or.inr (hdel₂ c hc hcv)
        · rcases hbr with ⟨-, c₂, hrest, rfl⟩ | ⟨hr, -, -, -, -, -, -⟩
          swap
          · exact absurd rfl hr
          obtain ⟨hchar₂, hres₂, hdel₂⟩ := ih rest hszr hrest
          have hbn : (b ++ [n] : Path) ≠ [] := by simp
          refine ⟨?_, ?_, ?_⟩
          · intro p
            rw [hchar₂ p, removeAt_get_ne_none hbn]
            simp only [delPaths, if_neg hfp, List.mem_cons]
            constructor
            · rintro ⟨⟨hnp, hs⟩, h2⟩
              refine ⟨hs, fun d hd => ?_⟩
              rcases hd with rfl | hd
              · exact hnp
              · exact h2 d hd
            · rintro ⟨hs, h12⟩
              exact ⟨⟨h12 _ (Or.inl rfl), hs⟩, fun d hd => h12 d (Or.inr hd)⟩
          · intro c hc
            rcases List.mem_cons.mp hc with rfl | hc
            · simp [if_neg hfp]
            · exact hres₂ c hc
          · intro c hc hcv
            rcases List.mem_cons.mp hc with rfl | hc
            · simp only [delPaths, if_neg hfp]
              exact List.mem_cons_self _ _
            · exact delPaths_tail_subset (hdel₂ c hc hcv)
      | Tree.file cf =>
        obtain ⟨s₁, r, c₂, hv, hrest, rfl⟩ := walk_pre_file_ok h
        obtain ⟨hchar₂, hres₂, hdel₂⟩ := ih rest hszr hrest
        rcases pruneWalker_ok hv with ⟨hfp, rfl, rfl⟩ | ⟨hfp, rfl, rfl⟩
        · refine ⟨?_, ?_, ?_⟩
          · intro p
            rw [hchar₂ p]
            simp [delPaths, if_pos hfp]
          · intro c hc
            rcases List.mem_cons.mp hc with rfl | hc
            · simp [if_pos hfp]
            · exact hres₂ c hc
          · intro c hc hcv
            rcases List.mem_cons.mp hc with rfl | hc
            · exact absurd hfp hcv
            · simp only [delPaths, if_pos hfp, List.nil_append]
              exact hdel₂ c hc hcv
        · have hbn : (b ++ [n] : Path) ≠ [] := by simp
          refine ⟨?_, ?_, ?_⟩
          · intro p
            rw [hchar₂ p, removeAt_get_ne_none hbn]
            simp only [delPaths, if_neg hfp, List.mem_cons]
            constructor
            · rintro ⟨⟨hnp, hs⟩, h2⟩
              refine ⟨hs, fun d hd => ?_⟩
              rcases hd with rfl | hd
              · exact hnp
              · exact h2 d hd
            · rintro ⟨hs, h12⟩
              exact ⟨⟨h12 _ (Or.inl rfl), hs⟩, fun d hd => h12 d (Or.inr hd)⟩
          · intro c hc
            rcases List.mem_cons.mp hc with rfl | hc
            · simp [if_neg hfp]
            · exact hres₂ c hc
          · intro c hc hcv
            rcases List.mem_cons.mp hc with rfl | hc
            · simp only [delPaths, if_neg hfp]
              exact List.mem_cons_self _ _
            · exact delPaths_tail_subset (hdel₂ c hc hcv)
      | Tree.link tg =>
        obtain ⟨s₁, r, c₂, hv, hrest, rfl⟩ := walk_pre_link_ok h
        obtain ⟨hchar₂, hres₂, hdel₂⟩ := ih rest hszr hrest
        rcases pruneWalker_ok hv with ⟨hfp, rfl, rfl⟩ | ⟨hfp, rfl, rfl⟩
        · refine ⟨?_, ?_, ?_⟩
          · intro p
            rw [hchar₂ p]
            simp [delPaths, if_pos hfp]
          · intro c hc
            rcases List.mem_cons.mp hc with rfl | hc
            · simp [if_pos hfp]
            · exact hres₂ c hc
          · intro c hc hcv
            rcases List.mem_cons.mp hc with rfl | hc
            · exact absurd hfp hcv
            · simp only [delPaths, if_pos hfp, List.nil_append]
              exact hdel₂ c hc hcv
        · have hbn : (b ++ [n] : Path) ≠ [] := by simp
          refine ⟨?_, ?_, ?_⟩
          · intro p
            rw [hchar₂ p, removeAt_get_ne_none hbn]
            simp only [delPaths, if_neg hfp, List.mem_cons]
            constructor
            · rintro ⟨⟨hnp, hs⟩, h2⟩
              refine ⟨hs, fun d hd => ?_⟩
              rcases hd with rfl | hd
              · exact hnp
              · exact h2 d hd
            · rintro ⟨hs, h12⟩
              exact ⟨⟨h12 _ (Or.inl rfl), hs⟩, fun d hd => h12 d (Or.inr hd)⟩
          · intro c hc
            rcases List.mem_cons.mp hc with rfl | hc
            · simp [if_neg hfp]
            · exact hres₂ c hc
          · intro c hc hcv
            rcases List.mem_cons.mp hc with rfl | hc
            · simp only [delPaths, if_neg hfp]
              exact List.mem_cons_self _ _
            · exact delPaths_tail_subset (hdel₂ c hc hcv)

/-! ### Primary copy pass lemmas -/

theorem copyWalker_ok {src : Tree} {excl record : Bool} {p : Path} {k : Kind}
    {st st₁ : CopySt} {r : Option Bool}
    (h : copyWalker src excl record p k st = Except.ok (st₁, r)) :
    r = none ∧ st₁.visited = (if record then st.visited ++ [p] else st.visited) := by
  cases record <;> cases k <;>
    simp only [copyWalker, if_true, if_false, Bool.false_eq_true] at h ⊢ <;>
    (repeat' split at h) <;>
    first
      | exact Except.noConfusion h
      | (simp only [Except.ok.injEq, Prod.mk.injEq] at h
         obtain ⟨h1, h2⟩ := h
         subst h1
         exact ⟨h2.symm, rfl⟩)

/-- With `existentPaths` active, the primary pass records exactly the
pre-order enumeration of the source. -/
theorem walk_copy_visited {src : Tree} {excl : Bool} :
    ∀ (N : Nat) (cs : List (String × Tree)), sizeOf cs ≤ N →
      ∀ {b : Path} {st : CopySt} {calls : List Call} {st' : CopySt},
        walkChildren false (copyWalker src excl true) b cs st = Except.ok (calls, st') →
        st'.visited = st.visited ++ prePaths b cs := by
  intro N
  induction N with
  | zero =>
    intro cs h
    exact absurd h (by cases cs <;> simp_arith)
  | succ N ih =>
    intro cs hsz b st calls st' h
    match cs with
    | [] =>
      rw [walk_nil] at h
      simp only [Except.ok.injEq, Prod.mk.injEq] at h
      rw [← h.2]
      simp [prePaths]
    | (n, Tree.dir csn) :: rest =>
      have hszr : sizeOf rest ≤ N := by
        have := sizeOf_rest_lt ((n, Tree.dir csn)) rest
        omega
      have hszc : sizeOf csn ≤ N := by
        have := sizeOf_sub_lt n csn rest
        omega
      obtain ⟨s₁, r, hv, hbr⟩ := walk_pre_dir_ok h
      obtain ⟨hr0, hvis⟩ := copyWalker_ok hv
      subst hr0
      rcases hbr with ⟨hr, -, -, -⟩ | ⟨-, c₁, s₂, c₂, hcs, hrest, rfl⟩
      · cases hr
      rw [if_pos rfl] at hvis
      rw [ih rest hszr hrest, ih csn hszc hcs, hvis]
      simp [prePaths]
    | (n, Tree.file cf) :: rest =>
      have hszr : sizeOf rest ≤ N := by
        have := sizeOf_rest_lt ((n, Tree.file cf)) rest
        omega
      obtain ⟨s₁, r, c₂, hv, hrest, rfl⟩ := walk_pre_file_ok h
      obtain ⟨hr0, hvis⟩ := copyWalker_ok hv
      rw [if_pos rfl] at hvis
      rw [ih rest hszr hrest, hvis]
      simp [prePaths]
    | (n, Tree.link tg) :: rest =>
      have hszr : sizeOf rest ≤ N := by
        have := sizeOf_rest_lt ((n, Tree.link tg)) rest
        omega
      obtain ⟨s₁, r, c₂, hv, hrest, rfl⟩ := walk_pre_link_ok h
      obtain ⟨hr0, hvis⟩ := copyWalker_ok hv
      rw [if_pos rfl] at hvis
      rw [ih rest hszr hrest, hvis]
      simp [prePaths]

theorem copyPrimary_ok_decomp {src : Tree} {dest0 : Option Tree} {flags : Nat}
    {mid : Tree} {V : List Path}
    (h : copyPrimary src dest0 flags = Except.ok (mid, V)) :
    ∃ cs d0 calls st, src = Tree.dir cs ∧
      mkdirRegion (!(hasFlag flags COPY_EXCL)) dest0 = Except.ok d0 ∧
      walkChildren false
        (copyWalker src (hasFlag flags COPY_EXCL) (hasFlag flags COPY_RMNONEXISTENT))
        [] cs ⟨d0, []⟩ = Except.ok (calls, st) ∧
      mid = st.dest ∧ V = st.visited := by
  simp only [copyPrimary] at h
  split at h
  · exact Except.noConfusion h
  next d0 hmk =>
    split at h
    next cs =>
      split at h
      · exact Except.noConfusion h
      next calls st hw =>
        simp only [Except.ok.injEq, Prod.mk.injEq] at h
        exact ⟨cs, d0, calls, st, rfl, hmk, hw, h.1.symm, h.2.symm⟩
    · exact Except.noConfusion h

theorem copyPrimary_visited {src : Tree} {dest0 : Option Tree} {flags : Nat}
    {mid : Tree} {V : List Path}
    (hrec : hasFlag flags COPY_RMNONEXISTENT = true)
    (h : copyPrimary src dest0 flags = Except.ok (mid, V)) :
    ∃ cs, src = Tree.dir cs ∧ V = prePaths [] cs := by
  obtain ⟨cs, d0, calls, st, hsrc, -, hw, -, hV⟩ := copyPrimary_ok_decomp h
  rw [hrec] at hw
  refine ⟨cs, hsrc, ?_⟩
  rw [hV, walk_copy_visited (sizeOf cs) cs (Nat.le_refl _) hw]
  simp

theorem prunePass_decomp {mid : Tree} {V : List Path} {calls : List Call}
    {fin : Tree} (h : prunePass mid V = Except.ok (calls, fin)) :
    ∃ mcs, mid = Tree.dir mcs ∧
      walkChildren false (pruneWalker V) [] mcs mid = Except.ok (calls, fin) := by
  simp only [prunePass, walkRun] at h
  split at h
  next mcs => exact ⟨mcs, rfl, h⟩
  all_goals exact Except.noConfusion h

theorem __copy_ok_decomp {src : Tree} {dest0 : Option Tree} {flags : Nat}
    {fin : Tree} (hrec : hasFlag flags COPY_RMNONEXISTENT = true)
    (h : __copy src dest0 flags = Except.ok fin) :
    ∃ mid V calls, copyPrimary src dest0 flags = Except.ok (mid, V) ∧
      prunePass mid V = Except.ok (calls, fin) := by
  simp only [__copy, hrec, if_true] at h
  split at h
  · exact Except.noConfusion h
  next mid V hp =>
    split at h
    · exact Except.noConfusion h
    next calls fin' hw =>
      simp only [Except.ok.injEq] at h
      exact ⟨mid, V, calls, hp, by rw [hw, h]⟩

theorem visited_closed {cs : List (String × Tree)} {q d : Path}
    (hq : q ∈ prePaths [] cs) (hd : d ≠ []) (hdq : d <+: q) : d ∈ prePaths [] cs :=
  prePaths_closed [] cs q hq d ( List.nil_prefix) hd hdq

theorem symlinkWalker_ok {ex : String → Bool} {res : String → String} {src : String}
    {excl record : Bool} {p : Path} {k : Kind} {st st₁ : SymSt} {r : Option Bool}
    (h : symlinkWalker ex res src excl record p k st = Except.ok (st₁, r)) :
    r = none ∧ st₁.visited = (if record then st.visited ++ [p] else st.visited) := by
  cases record <;> cases k <;>
    simp only [symlinkWalker, if_true, if_false, Bool.false_eq_true] at h ⊢ <;>
    (repeat' split at h) <;>
    first
      | exact Except.noConfusion h
      | (simp only [Except.ok.injEq, Prod.mk.injEq] at h
         obtain ⟨h1, h2⟩ := h
         subst h1
         exact ⟨h2.symm, rfl⟩)

/-- With `existentPaths` active, the primary symlink pass records
exactly the pre-order enumeration of the source. -/
theorem walk_symlink_visited {ex : String → Bool} {res : String → String}
    {src : String} {excl : Bool} :
    ∀ (N : Nat) (cs : List (String × Tree)), sizeOf cs ≤ N →
      ∀ {b : Path} {st : SymSt} {calls : List Call} {st' : SymSt},
        walkChildren false (symlinkWalker ex res src excl true) b cs st =
          Except.ok (calls, st') →
        st'.visited = st.visited ++ prePaths b cs := by
  intro N
  induction N with
  | zero =>
    intro cs h
    exact absurd h (by cases cs <;> simp_arith)
  | succ N ih =>
    intro cs hsz b st calls st' h
    match cs with
    | [] =>
      rw [walk_nil] at h
      simp only [Except.ok.injEq, Prod.mk.injEq] at h
      rw [← h.2]
      simp [prePaths]
    | (n, Tree.dir csn) :: rest =>
      have hszr : sizeOf rest ≤ N := by
        have := sizeOf_rest_lt ((n, Tree.dir csn)) rest
        omega
      have hszc : sizeOf csn ≤ N := by
        have := sizeOf_sub_lt n csn rest
        omega
      obtain ⟨s₁, r, hv, hbr⟩ := walk_pre_dir_ok h
      obtain ⟨hr0, hvis⟩ := symlinkWalker_ok hv
      subst hr0
      rcases hbr with ⟨hr, -, -, -⟩ | ⟨-, c₁, s₂, c₂, hcs, hrest, rfl⟩
      · cases hr
      rw [if_pos rfl] at hvis
      rw [ih rest hszr hrest, ih csn hszc hcs, hvis]
      simp [prePaths]
    | (n, Tree.file cf) :: rest =>
      have hszr : sizeOf rest ≤ N := by
        have := sizeOf_rest_lt ((n, Tree.file cf)) rest
        omega
      obtain ⟨s₁, r, c₂, hv, hrest, rfl⟩ := walk_pre_file_ok h
      obtain ⟨hr0, hvis⟩ := symlinkWalker_ok hv
      rw [if_pos rfl] at hvis
      rw [ih rest hszr hrest, hvis]
      simp [prePaths]
    | (n, Tree.link tg) :: rest =>
      have hszr : sizeOf rest ≤ N := by
        have := sizeOf_rest_lt ((n, Tree.link tg)) rest
        omega
      obtain ⟨s₁, r, c₂, hv, hrest, rfl⟩ := walk_pre_link_ok h
      obtain ⟨hr0, hvis⟩ := symlinkWalker_ok hv
      rw [if_pos rfl] at hvis
      rw [ih rest hszr hrest, hvis]
      simp [prePaths]

theorem symlinkPrimary_ok_decomp {ex : String → Bool} {res : String → String}
    {srcTree : Tree} {src : String} {dest0 : Option Tree} {flags : Nat}
    {mid : Tree} {V : List Path}
    (h : symlinkPrimary ex res srcTree src dest0 flags = Except.ok (mid, V)) :
    ∃ cs d0 calls st, srcTree = Tree.dir cs ∧
      mkdirRegion (!(hasFlag flags SYMLINK_EXCL)) dest0 = Except.ok d0 ∧
      walkChildren false
        (symlinkWalker ex res src (hasFlag flags SYMLINK_EXCL)
          (hasFlag flags SYMLINK_RMNONEXISTENT))
        [] cs ⟨d0, []⟩ = Except.ok (calls, st) ∧
      mid = st.dest ∧ V = st.visited := by
  simp only [symlinkPrimary] at h
  split at h
  · exact Except.noConfusion h
  next d0 hmk =>
    split at h
    next cs =>
      split at h
      · exact Except.noConfusion h
      next calls st hw =>
        simp only [Except.ok.injEq, Prod.mk.injEq] at h
        exact ⟨cs, d0, calls, st, rfl, hmk, hw, h.1.symm, h.2.symm⟩
    · exact Except.noConfusion h

theorem symlinkPrimary_visited {ex : String → Bool} {res : String → String}
    {srcTree : Tree} {src : String} {dest0 : Option Tree} {flags : Nat}
    {mid : Tree} {V : List Path}
    (hrec : hasFlag flags SYMLINK_RMNONEXISTENT = true)
    (h : symlinkPrimary ex res srcTree src dest0 flags = Except.ok (mid, V)) :
    ∃ cs, srcTree = Tree.dir cs ∧ V = prePaths [] cs := by
  obtain ⟨cs, d0, calls, st, hsrc, -, hw, -, hV⟩ := symlinkPrimary_ok_decomp h
  rw [hrec] at hw
  refine ⟨cs, hsrc, ?_⟩
  rw [hV, walk_symlink_visited (sizeOf cs) cs (Nat.le_refl _) hw]
  simp

theorem __symlink_ok_decomp {ex : String → Bool} {res : String → String}
    {srcTree : Tree} {src : String} {dest0 : Option Tree} {flags : Nat} {fin : Tree}
    (hrec : hasFlag flags SYMLINK_RMNONEXISTENT = true)
    (h : __symlink ex res srcTree src dest0 flags = Except.ok fin) :
    ∃ mid V calls, symlinkPrimary ex res srcTree src dest0 flags = Except.ok (mid, V) ∧
      prunePass mid V = Except.ok (calls, fin) := by
  simp only [__symlink, hrec, if_true] at h
  split at h
  · exact Except.noConfusion h
  next mid V hp =>
    split at h
    · exact Except.noConfusion h
    next calls fin' hw =>
      simp only [Except.ok.injEq] at h
      exact ⟨mid, V, calls, hp, by rw [hw, h]⟩

/-- Common core of the pruning exactness for both mirrors: when the
recorded set is the pre-order enumeration of some source forest and
the reconciliation pass completes, a recorded path present in the
snapshot survives, and a non-root path survives iff it was present
and recorded. -/
theorem prune_exactness {mid fin : Tree} {V : List Path} {cs : List (String × Tree)}
    {calls : List Call}
    (hVpre : V = prePaths [] cs)
    (hprune : prunePass mid V = Except.ok (calls, fin)) :
    (∀ p ∈ V, mid.get p ≠ none → fin.get p ≠ none) ∧
    (∀ p, p ≠ [] → (fin.get p ≠ none ↔ (mid.get p ≠ none ∧ p ∈ V))) := by
  obtain ⟨mcs, hmid, hw⟩ := prunePass_decomp hprune
  obtain ⟨hchar, -, -⟩ := prune_run (sizeOf mcs) mcs (Nat.le_refl _) hw
  have hclosed : ∀ q ∈ V, ∀ d, d ≠ [] → d <+: q → d ∈ V := by
    rw [hVpre]
    intro q hq d hd hdq
    exact visited_closed hq hd hdq
  have hnodel : ∀ p ∈ V, ∀ d ∈ delPaths V [] mcs, ¬ d <+: p := by
    intro p hpV d hd hdp
    obtain ⟨hdV, n, q', hdshape⟩ := delPaths_shape V [] mcs d hd
    have hdne : d ≠ [] := by rw [hdshape]; simp
    exact hdV (hclosed p hpV d hdne hdp)
  constructor
  · intro p hpV hmidp
    exact (hchar p).mpr ⟨hmidp, hnodel p hpV⟩
  · intro p hne
    constructor
    · intro hf
      obtain ⟨hmidp, hnd⟩ := (hchar p).mp hf
      refine ⟨hmidp, ?_⟩
      by_contra hpV
      obtain ⟨q, hqp, hq0, hqV, hqmin⟩ :=
        exists_minimal_not_mem (V := V) p.length p (Nat.le_refl _) hpV hne
      have hmq : mid.get q ≠ none := get_isSome_of_prefix hqp hmidp
      rw [hmid] at hmq
      obtain ⟨d, hd, hdq⟩ :=
        delPaths_cover (b := []) hmq hq0
          (fun r hr h0 hne' => by simpa using hqmin r hr h0 hne')
          (by simpa using hqV)
      have hdp : d <+: p := (by simpa using hdq : d <+: q).trans hqp
      exact hnd d hd hdp
    · rintro ⟨hmidp, hpV⟩
      exact (hchar p).mpr ⟨hmidp, hnodel p hpV⟩

/-- Concrete evaluation: the primary pass of a pruning mirror of
`{a}` onto a destination holding a stale file `stale` and records
`[a]`. -/
theorem copyPrimary_ex1 :
    copyPrimary (Tree.dir [("a", Tree.file ("x"))])
      (some (Tree.dir [("stale", Tree.file ("z"))])) 2 =
      Except.ok (Tree.dir [("stale", Tree.file ("z")), ("a", Tree.file ("x"))], [["a"]]) := by
  simp [copyPrimary, hasFlag, mkdirRegion, walkChildren, copyWalker, COPY_EXCL,
    COPY_RMNONEXISTENT, Tree.get, findChild, writeFileAt, mkdirAt, replaceFirst]

/-- Concrete evaluation: the reconciliation pass over that snapshot
deletes the stale file and keeps the recorded one. -/
theorem prunePass_ex1 :
    prunePass (Tree.dir [("stale", Tree.file ("z")), ("a", Tree.file ("x"))]) [["a"]] =
      Except.ok ([⟨["stale"], Kind.file, some false⟩, ⟨["a"], Kind.file, none⟩],
        Tree.dir [("a", Tree.file ("x"))]) := by
  simp [prunePass, walkRun, walkChildren, pruneWalker, Tree.removeAt, List.filter]

/-- Concrete evaluation: the full pruning copy of that example. -/
theorem copy_ex1 :
    __copy (Tree.dir [("a", Tree.file ("x"))])
      (some (Tree.dir [("stale", Tree.file ("z"))])) 2 =
      Except.ok (Tree.dir [("a", Tree.file ("x"))]) := by
  simp only [__copy, copyPrimary_ex1, prunePass_ex1, hasFlag, COPY_RMNONEXISTENT]
  norm_num

/-- Concrete evaluation: the primary pass of a pruning mirror of
`{a}` onto a destination holding a stale directory `extra` with a
child `extra/s`. -/
theorem copyPrimary_ex2 :
    copyPrimary (Tree.dir [("a", Tree.file ("x"))])
      (some (Tree.dir [("extra", Tree.dir [("s", Tree.file ("z"))])])) 2 =
      Except.ok (Tree.dir [("extra", Tree.dir [("s", Tree.file ("z"))]), ("a", Tree.file ("x"))],
        [["a"]]) := by
  simp [copyPrimary, hasFlag, mkdirRegion, walkChildren, copyWalker, COPY_EXCL,
    COPY_RMNONEXISTENT, Tree.get, findChild, writeFileAt, mkdirAt, replaceFirst]

/-- Concrete evaluation: the reconciliation pass over that snapshot
deletes the whole stale directory at its own call and never calls
inside it. -/
theorem prunePass_ex2 :
    prunePass (Tree.dir [("extra", Tree.dir [("s", Tree.file ("z"))]), ("a", Tree.file ("x"))])
      [["a"]] =
      Except.ok ([⟨["extra"], Kind.dir, some false⟩, ⟨["a"], Kind.file, none⟩],
        Tree.dir [("a", Tree.file ("x"))]) := by
  simp [prunePass, walkRun, walkChildren, pruneWalker, Tree.removeAt, List.filter]

/-- Concrete evaluation: the primary pass of a pruning symlink
mirror of `{a}` onto a destination holding a stale file `stale`,
linking `a` to the resolved source and recording `[a]`. -/
theorem symlinkPrimary_ex1 :
    symlinkPrimary (fun _ => true) (fun _ => ("/T")) (Tree.dir [("a", Tree.file ("x"))])
      ("/s") (some (Tree.dir [("stale", Tree.file ("z"))])) 8 =
      Except.ok (Tree.dir [("stale", Tree.file ("z")), ("a", Tree.link ("/T"))], [["a"]]) := by
  have h₁ : hasFlag 8 SYMLINK_EXCL = false := rfl
  have h₂ : hasFlag 8 SYMLINK_RMNONEXISTENT = true := rfl
  simp [symlinkPrimary, h₁, h₂, mkdirRegion, walkChildren, symlinkWalker,
    __symlinkFileAt, existsSyncAt, linkAt, Tree.get, findChild, replaceFirst, joinStr]

/-- Concrete evaluation: the reconciliation pass over that symlink
snapshot deletes the stale file and keeps the recorded link. -/
theorem prunePass_ex3 :
    prunePass (Tree.dir [("stale", Tree.file ("z")), ("a", Tree.link ("/T"))]) [["a"]] =
      Except.ok ([⟨["stale"], Kind.file, some false⟩, ⟨["a"], Kind.link, none⟩],
        Tree.dir [("a", Tree.link ("/T"))]) := by
  simp [prunePass, walkRun, walkChildren, pruneWalker, Tree.removeAt, List.filter]

/-- Concrete evaluation: the full pruning symlink mirror of that
example. -/
theorem symlink_ex1 :
    __symlink (fun _ => true) (fun _ => ("/T")) (Tree.dir [("a", Tree.file ("x"))]) ("/s")
      (some (Tree.dir [("stale", Tree.file ("z"))])) 8 =
      Except.ok (Tree.dir [("a", Tree.link ("/T"))]) := by
  have h₂ : hasFlag 8 SYMLINK_RMNONEXISTENT = true := rfl
  simp [__symlink, symlinkPrimary_ex1, prunePass_ex3, h₂]

/-- C1.  For every mirror run — copy or symlink of a directory —
with `pruneStale` set (`COPY_RMNONEXISTENT` / `SYMLINK_RMNONEXISTENT`)
that completes, the reconciliation pass deletes exactly those
destination entries (present after the primary pass) whose paths are
absent from the recorded VisitedSet, and never deletes a recorded
path: a non-root path survives into the final destination iff it was
present after the primary pass and recorded. -/
theorem C1_prune_deletes_exactly_unvisited :
    (∀ (src : Tree) (dest0 : Option Tree) (flags : Nat) (mid fin : Tree) (V : List Path),
       hasFlag flags COPY_RMNONEXISTENT = true →
       copyPrimary src dest0 flags = Except.ok (mid, V) →
       __copy src dest0 flags = Except.ok fin →
       (∀ p ∈ V, mid.get p ≠ none → fin.get p ≠ none) ∧
       (∀ p, p ≠ [] → (fin.get p ≠ none ↔ (mid.get p ≠ none ∧ p ∈ V)))) ∧
    (∀ (ex : String → Bool) (res : String → String) (srcTree : Tree) (src : String)
       (dest0 : Option Tree) (flags : Nat) (mid fin : Tree) (V : List Path),
       hasFlag flags SYMLINK_RMNONEXISTENT = true →
       symlinkPrimary ex res srcTree src dest0 flags = Except.ok (mid, V) →
       __symlink ex res srcTree src dest0 flags = Except.ok fin →
       (∀ p ∈ V, mid.get p ≠ none → fin.get p ≠ none) ∧
       (∀ p, p ≠ [] → (fin.get p ≠ none ↔ (mid.get p ≠ none ∧ p ∈ V)))) := by
  constructor
  · intro src dest0 flags mid fin V hflag hprimary hrun
    obtain ⟨mid', V', calls, hp', hprune⟩ := __copy_ok_decomp hflag hrun
    rw [hprimary] at hp'
    simp only [Except.ok.injEq, Prod.mk.injEq] at hp'
    obtain ⟨rfl, rfl⟩ := hp'
    obtain ⟨scs, -, hVpre⟩ := copyPrimary_visited hflag hprimary
    exact prune_exactness hVpre hprune
  · intro ex res srcTree src dest0 flags mid fin V hflag hprimary hrun
    obtain ⟨mid', V', calls, hp', hprune⟩ := __symlink_ok_decomp hflag hrun
    rw [hprimary] at hp'
    simp only [Except.ok.injEq, Prod.mk.injEq] at hp'
    obtain ⟨rfl, rfl⟩ := hp'
    obtain ⟨scs, -, hVpre⟩ := symlinkPrimary_visited hflag hprimary
    exact prune_exactness hVpre hprune

/-- Witness for C1: concrete pruning copy and symlink mirror runs
over destinations with a stale file each. -/
theorem C1_prune_deletes_exactly_unvisited_witness :
    hasFlag 2 COPY_RMNONEXISTENT = true ∧
    hasFlag 8 SYMLINK_RMNONEXISTENT = true ∧
    ((∀ p ∈ [["a"]],
        Tree.get (Tree.dir [("stale", Tree.file ("z")), ("a", Tree.file ("x"))]) p ≠ none →
        Tree.get (Tree.dir [("a", Tree.file ("x"))]) p ≠ none) ∧
     (∀ p, p ≠ [] →
       (Tree.get (Tree.dir [("a", Tree.file ("x"))]) p ≠ none ↔
        (Tree.get (Tree.dir [("stale", Tree.file ("z")), ("a", Tree.file ("x"))]) p ≠ none ∧
         p ∈ [["a"]])))) ∧
    ((∀ p ∈ [["a"]],
        Tree.get (Tree.dir [("stale", Tree.file ("z")), ("a", Tree.link ("/T"))]) p ≠ none →
        Tree.get (Tree.dir [("a", Tree.link ("/T"))]) p ≠ none) ∧
     (∀ p, p ≠ [] →
       (Tree.get (Tree.dir [("a", Tree.link ("/T"))]) p ≠ none ↔
        (Tree.get (Tree.dir [("stale", Tree.file ("z")), ("a", Tree.link ("/T"))]) p ≠ none ∧
         p ∈ [["a"]])))) := by
  exact ⟨rfl, rfl,
    C1_prune_deletes_exactly_unvisited.1 (Tree.dir [("a", Tree.file ("x"))])
      (some (Tree.dir [("stale", Tree.file ("z"))])) 2
      (Tree.dir [("stale", Tree.file ("z")), ("a", Tree.file ("x"))])
      (Tree.dir [("a", Tree.file ("x"))]) [["a"]] rfl copyPrimary_ex1 copy_ex1,
    C1_prune_deletes_exactly_unvisited.2 (fun _ => true) (fun _ => ("/T"))
      (Tree.dir [("a", Tree.file ("x"))]) ("/s")
      (some (Tree.dir [("stale", Tree.file ("z"))])) 8
      (Tree.dir [("stale", Tree.file ("z")), ("a", Tree.link ("/T"))])
      (Tree.dir [("a", Tree.link ("/T"))]) [["a"]] rfl symlinkPrimary_ex1 symlink_ex1⟩

/-- C3.  Directory-mode copy with `exclusive` (`COPY_EXCL`) never
overwrites an existing destination file: an existing destination is
rejected outright with `AlreadyExists` by the initial non-recursive
`mkdir`, so every completed exclusive run starts from an absent
destination (hence nothing pre-existing can be overwritten), while
without `exclusive` an existing destination file is overwritten with
the source content. -/
theorem C3_exclusive_never_overwrites :
    (∀ (src t : Tree) (flags : Nat), hasFlag flags COPY_EXCL = true →
       __copy src (some t) flags = Except.error Err.AlreadyExists) ∧
    (∀ (src : Tree) (dest0 : Option Tree) (flags : Nat) (fin : Tree),
       hasFlag flags COPY_EXCL = true →
       __copy src dest0 flags = Except.ok fin → dest0 = none) ∧
    (∀ c₀ c₁ : String,
       __copy (Tree.dir [("f", Tree.file c₁)]) (some (Tree.dir [("f", Tree.file c₀)])) 0 =
         Except.ok (Tree.dir [("f", Tree.file c₁)])) := by
  have hfail : ∀ (src t : Tree) (flags : Nat), hasFlag flags COPY_EXCL = true →
      __copy src (some t) flags = Except.error Err.AlreadyExists := by
    intro src t flags h
    simp [__copy, copyPrimary, h, mkdirRegion]
  refine ⟨hfail, ?_, ?_⟩
  · intro src dest0 flags fin h hok
    match dest0 with
    | none => rfl
    | some t => rw [hfail src t flags h] at hok; exact Except.noConfusion hok
  · intro c₀ c₁
    simp [__copy, copyPrimary, hasFlag, mkdirRegion, walkChildren, copyWalker, COPY_EXCL,
      COPY_RMNONEXISTENT, Tree.get, findChild, writeFileAt, mkdirAt, replaceFirst]

/-- Witness for C3: concrete exclusive rejections and a concrete
non-exclusive overwrite. -/
theorem C3_exclusive_never_overwrites_witness :
    __copy (Tree.dir []) (some (Tree.dir [])) 1 = Except.error Err.AlreadyExists ∧
    __copy (Tree.dir [("f", Tree.file ("new"))]) (some (Tree.dir [("f", Tree.file ("old"))])) 0 =
      Except.ok (Tree.dir [("f", Tree.file ("new"))]) := by
  exact ⟨C3_exclusive_never_overwrites.1 (Tree.dir []) (Tree.dir []) 1 rfl,
    C3_exclusive_never_overwrites.2.2 ("old") ("new")⟩

/-- C4 counterexample.  The reconciliation pass of a concrete
completed pruning mirror is not a post-order walk: the stale
directory `extra` still contains the entry `extra/s` in the walked
destination snapshot, yet the trace contains no call for `extra/s`
at all — the pass visited the directory first (pre-order), deleted
it and skipped descent, whereas a post-order pass would have visited
the child before its parent. -/
theorem C4_counterexample :
    copyPrimary (Tree.dir [("a", Tree.file ("x"))])
      (some (Tree.dir [("extra", Tree.dir [("s", Tree.file ("z"))])])) 2 =
      Except.ok (Tree.dir [("extra", Tree.dir [("s", Tree.file ("z"))]), ("a", Tree.file ("x"))],
        [["a"]]) ∧
    prunePass (Tree.dir [("extra", Tree.dir [("s", Tree.file ("z"))]), ("a", Tree.file ("x"))])
      [["a"]] =
      Except.ok ([⟨["extra"], Kind.dir, some false⟩, ⟨["a"], Kind.file, none⟩],
        Tree.dir [("a", Tree.file ("x"))]) ∧
    Tree.get (Tree.dir [("extra", Tree.dir [("s", Tree.file ("z"))]), ("a", Tree.file ("x"))])
      ["extra", "s"] = some (Tree.file ("z")) ∧
    (∀ c ∈ [(⟨["extra"], Kind.dir, some false⟩ : Call), ⟨["a"], Kind.file, none⟩],
      c.path ≠ ["extra", "s"]) := by
  refine ⟨copyPrimary_ex2, prunePass_ex2, ?_, ?_⟩
  · simp [Tree.get, findChild]
  · intro c hc
    simp only [List.mem_cons] at hc
    rcases hc with rfl | rfl | h <;> simp_all

/-- C4 amended.  The reconciliation pass is the default pre-order
walk (`__walk` receives no flags): each call at a recorded path
returns `undefined` and descent continues; each call at an
unrecorded path removes the whole subtree at that path, returns
`false`, and (pre-order skip) no call is made strictly inside it. -/
theorem C4_reconciliation_is_preorder_prune {mid : Tree} {V : List Path}
    {calls : List Call} {fin : Tree}
    (h : prunePass mid V = Except.ok (calls, fin)) :
    (∀ c ∈ calls, c.result = (if c.path ∈ V then none else some false)) ∧
    (∀ c ∈ calls, c.path ∉ V → ∀ p, c.path <+: p → fin.get p = none) ∧
    (treeWf mid → ∀ c ∈ calls, c.result = some false →
       ∀ c' ∈ calls, c'.path ≠ c.path → ¬ c.path <+: c'.path) := by
  obtain ⟨mcs, hmid, hw⟩ := prunePass_decomp h
  obtain ⟨hchar, hres, hdel⟩ := prune_run (sizeOf mcs) mcs (Nat.le_refl _) hw
  refine ⟨hres, ?_, ?_⟩
  · intro c hc hcv p hp
    by_contra hq
    exact ((hchar p).mp hq).2 c.path (hdel c hc hcv) hp
  · intro hwf
    rw [hmid] at hwf
    exact walk_pre_skip (sizeOf mcs) mcs (Nat.le_refl _) hwf hw

/-- Witness for C4 amended, on the concrete pruning run of the
counterexample. -/
theorem C4_reconciliation_is_preorder_prune_witness :
    prunePass (Tree.dir [("extra", Tree.dir [("s", Tree.file ("z"))]), ("a", Tree.file ("x"))])
      [["a"]] =
      Except.ok ([⟨["extra"], Kind.dir, some false⟩, ⟨["a"], Kind.file, none⟩],
        Tree.dir [("a", Tree.file ("x"))]) ∧
    ((∀ c ∈ [(⟨["extra"], Kind.dir, some false⟩ : Call), ⟨["a"], Kind.file, none⟩],
       c.result = (if c.path ∈ [["a"]] then none else some false)) ∧
     (∀ c ∈ [(⟨["extra"], Kind.dir, some false⟩ : Call), ⟨["a"], Kind.file, none⟩],
       c.path ∉ [["a"]] → ∀ p, c.path <+: p →
         Tree.get (Tree.dir [("a", Tree.file ("x"))]) p = none) ∧
     (treeWf (Tree.dir [("extra", Tree.dir [("s", Tree.file ("z"))]), ("a", Tree.file ("x"))]) →
      ∀ c ∈ [(⟨["extra"], Kind.dir, some false⟩ : Call), ⟨["a"], Kind.file, none⟩],
       c.result = some false →
       ∀ c' ∈ [(⟨["extra"], Kind.dir, some false⟩ : Call), ⟨["a"], Kind.file, none⟩],
         c'.path ≠ c.path → ¬ c.path <+: c'.path)) := by
  exact ⟨prunePass_ex2, C4_reconciliation_is_preorder_prune prunePass_ex2⟩

theorem walkRun_decomp {σ : Type} {ff : Bool} {v : Visitor σ} {root : Tree}
    {s : σ} {calls : List Call} {s' : σ}
    (h : walkRun ff v root s = Except.ok (calls, s')) :
    ∃ cs, root = Tree.dir cs ∧ walkChildren ff v [] cs s = Except.ok (calls, s') := by
  simp only [walkRun] at h
  split at h
  next cs => exact ⟨cs, rfl, h⟩
  all_goals exact Except.noConfusion h

/-- C2.  In the default pre-order walk, a directory visitor call that
returned exactly the boolean `false` suppresses every visitor call
inside that directory, while any other result (including
`undefined`) lets every direct child receive its own call. -/
theorem C2_preorder_false_skips_descent {σ : Type} {v : Visitor σ} {root : Tree}
    {s : σ} {calls : List Call} {s' : σ}
    (hwf : treeWf root)
    (h : walkRun false v root s = Except.ok (calls, s')) :
    (∀ c ∈ calls, c.kind = Kind.dir → c.result = some false →
       ∀ c' ∈ calls, c'.path ≠ c.path → ¬ c.path <+: c'.path) ∧
    (∀ c ∈ calls, c.kind = Kind.dir → c.result ≠ some false →
       ∀ cs', root.get c.path = some (Tree.dir cs') →
       ∀ e ∈ cs', ∃ c' ∈ calls, c'.path = c.path ++ [e.1] ∧ c'.kind = e.2.kind) := by
  obtain ⟨cs, rfl, hw⟩ := walkRun_decomp h
  constructor
  · intro c hc _ hres c' hc' hne hpre
    exact walk_pre_skip (sizeOf cs) cs (Nat.le_refl _) hwf hw c hc hres c' hc' hne hpre
  · intro c hc _ hres cs' hget e he
    exact walk_pre_descend (sizeOf cs) cs (Nat.le_refl _) hwf hw c hc hres
      c.path cs' (by simp) hget e he

/-- Witness for C2: a visitor returning `false` at `skip` and
`undefined` elsewhere, on a two-directory tree. -/
theorem C2_preorder_false_skips_descent_witness :
    treeWf (Tree.dir [("skip", Tree.dir [("in", Tree.file ("c"))]),
      ("go", Tree.dir [("f", Tree.file ("c"))])]) ∧
    walkRun false
      (fun p _ s => Except.ok (s, if p = ["skip"] then some false else none))
      (Tree.dir [("skip", Tree.dir [("in", Tree.file ("c"))]),
        ("go", Tree.dir [("f", Tree.file ("c"))])]) () =
      Except.ok ([⟨["skip"], Kind.dir, some false⟩, ⟨["go"], Kind.dir, none⟩,
        ⟨["go", "f"], Kind.file, none⟩], ()) ∧
    ((∀ c ∈ [(⟨["skip"], Kind.dir, some false⟩ : Call), ⟨["go"], Kind.dir, none⟩,
        ⟨["go", "f"], Kind.file, none⟩], c.kind = Kind.dir → c.result = some false →
       ∀ c' ∈ [(⟨["skip"], Kind.dir, some false⟩ : Call), ⟨["go"], Kind.dir, none⟩,
        ⟨["go", "f"], Kind.file, none⟩], c'.path ≠ c.path → ¬ c.path <+: c'.path) ∧
     (∀ c ∈ [(⟨["skip"], Kind.dir, some false⟩ : Call), ⟨["go"], Kind.dir, none⟩,
        ⟨["go", "f"], Kind.file, none⟩], c.kind = Kind.dir → c.result ≠ some false →
       ∀ cs', Tree.get (Tree.dir [("skip", Tree.dir [("in", Tree.file ("c"))]),
          ("go", Tree.dir [("f", Tree.file ("c"))])]) c.path = some (Tree.dir cs') →
       ∀ e ∈ cs', ∃ c' ∈ [(⟨["skip"], Kind.dir, some false⟩ : Call), ⟨["go"], Kind.dir, none⟩,
        ⟨["go", "f"], Kind.file, none⟩], c'.path = c.path ++ [e.1] ∧ c'.kind = e.2.kind)) := by
  have hwf : treeWf (Tree.dir [("skip", Tree.dir [("in", Tree.file ("c"))]),
      ("go", Tree.dir [("f", Tree.file ("c"))])]) := by
    simp [treeWf, forestWf]
  have h : walkRun false
      (fun p _ (s : Unit) => Except.ok (s, if p = ["skip"] then some false else none))
      (Tree.dir [("skip", Tree.dir [("in", Tree.file ("c"))]),
        ("go", Tree.dir [("f", Tree.file ("c"))])]) () =
      Except.ok ([⟨["skip"], Kind.dir, some false⟩, ⟨["go"], Kind.dir, none⟩,
        ⟨["go", "f"], Kind.file, none⟩], ()) := by
    simp [walkRun, walkChildren]
  exact ⟨hwf, h, C2_preorder_false_skips_descent hwf h⟩

/-- C6.  With `WALK_FILEFIRST` the call paths are exactly the
post-order enumeration — independent of anything the visitor
returns, so the result has no effect on descent — every existing
entry is visited, and a directory's call comes only after the calls
of all of its descendants (no later call path strictly extends an
earlier one, so no descendant is visited after its ancestor). -/
theorem C6_filefirst_postorder {σ : Type} {v : Visitor σ}
    {cs : List (String × Tree)} {s : σ} {calls : List Call} {s' : σ}
    (h : walkRun true v (Tree.dir cs) s = Except.ok (calls, s')) :
    calls.map Call.path = postPaths [] cs ∧
    (∀ q, q ≠ [] → (Tree.dir cs).get q ≠ none → q ∈ calls.map Call.path) ∧
    (treeWf (Tree.dir cs) →
      (calls.map Call.path).Pairwise (fun x y => ¬ (x <+: y ∧ x ≠ y))) := by
  obtain ⟨cs₁, hcs, hw⟩ := walkRun_decomp h
  rw [(Tree.dir.inj hcs).symm] at hw
  have hmap := walk_post_trace (sizeOf cs) cs (Nat.le_refl _) hw
  refine ⟨hmap, ?_, ?_⟩
  · intro q hq hget
    rw [hmap, postPaths_mem_iff]
    simpa using prePaths_of_get (b := []) hget hq
  · intro hwf
    rw [hmap]
    exact postPaths_pairwise [] cs hwf

/-- Witness for C6: a post-order run whose visitor returns `false`
everywhere, which still descends everywhere. -/
theorem C6_filefirst_postorder_witness :
    walkRun true (fun _ _ (s : Unit) => Except.ok (s, some false))
      (Tree.dir [("d", Tree.dir [("f", Tree.file ("c"))]), ("g", Tree.file ("h"))]) () =
      Except.ok ([⟨["d", "f"], Kind.file, some false⟩, ⟨["d"], Kind.dir, some false⟩,
        ⟨["g"], Kind.file, some false⟩], ()) ∧
    (([⟨["d", "f"], Kind.file, some false⟩, ⟨["d"], Kind.dir, some false⟩,
        ⟨["g"], Kind.file, some false⟩] : List Call).map Call.path =
      postPaths [] [("d", Tree.dir [("f", Tree.file ("c"))]), ("g", Tree.file ("h"))] ∧
     (∀ q, q ≠ [] →
       Tree.get (Tree.dir [("d", Tree.dir [("f", Tree.file ("c"))]), ("g", Tree.file ("h"))]) q ≠ none →
       q ∈ ([⟨["d", "f"], Kind.file, some false⟩, ⟨["d"], Kind.dir, some false⟩,
        ⟨["g"], Kind.file, some false⟩] : List Call).map Call.path) ∧
     (treeWf (Tree.dir [("d", Tree.dir [("f", Tree.file ("c"))]), ("g", Tree.file ("h"))]) →
       (([⟨["d", "f"], Kind.file, some false⟩, ⟨["d"], Kind.dir, some false⟩,
        ⟨["g"], Kind.file, some false⟩] : List Call).map Call.path).Pairwise
         (fun x y => ¬ (x <+: y ∧ x ≠ y)))) := by
  have h : walkRun true (fun _ _ (s : Unit) => Except.ok (s, some false))
      (Tree.dir [("d", Tree.dir [("f", Tree.file ("c"))]), ("g", Tree.file ("h"))]) () =
      Except.ok ([⟨["d", "f"], Kind.file, some false⟩, ⟨["d"], Kind.dir, some false⟩,
        ⟨["g"], Kind.file, some false⟩], ()) := by
    simp [walkRun, walkChildren]
  exact ⟨h, C6_filefirst_postorder h⟩

/-- C9.  Passing the visitor function in the `flags` position with no
third argument swaps the arguments: the walk runs that function as
visitor with no flags, identically to the three-argument forms with
`undefined` or `0` flags, i.e. a default pre-order run. -/
theorem C9_walk_function_in_flags_position {σ : Type} (v : Visitor σ)
    (root : Tree) (s : σ) :
    walk root (JsArg.fn v) JsArg.undef s = walk root JsArg.undef (JsArg.fn v) s ∧
    walk root (JsArg.fn v) JsArg.undef s = walk root (JsArg.num 0) (JsArg.fn v) s ∧
    walk root (JsArg.fn v) JsArg.undef s = walkRun false v root s := by
  refine ⟨rfl, rfl, ?_⟩
  simp [walk, JsArg.toFlags, hasFlag, WALK_FILEFIRST]

/-! ### Symlink lemmas -/

theorem symlinkFileAt_ok_link {ex : String → Bool} {r : String} {flags : Nat}
    {d : Tree} {p : Path} {d' : Tree} {evs : List Ev}
    (h : __symlinkFileAt ex r flags d p = Except.ok (d', evs)) :
    d'.get p = some (Tree.link r) := by
  simp only [__symlinkFileAt] at h
  by_cases hc : (hasFlag flags SYMLINK_EXCL || !existsSyncAt ex d p) = true
  · rw [if_pos hc] at h
    match hl : linkAt r d p with
    | Except.error e => rw [hl] at h; exact Except.noConfusion h
    | Except.ok d₂ =>
      rw [hl] at h
      simp only [Except.ok.injEq, Prod.mk.injEq] at h
      rw [← h.1]
      exact linkAt_ok_get hl
  · rw [if_neg hc] at h
    match hget : d.get p with
    | none =>
      simp only [hget] at h
      exact Except.noConfusion h
    | some (Tree.link tgt) =>
      simp only [hget] at h
      by_cases hr : r ≠ tgt
      · rw [if_pos hr] at h
        match hl : linkAt r (d.removeAt p) p with
        | Except.error e => rw [hl] at h; exact Except.noConfusion h
        | Except.ok d₂ =>
          rw [hl] at h
          simp only [Except.ok.injEq, Prod.mk.injEq] at h
          rw [← h.1]
          exact linkAt_ok_get hl
      · rw [if_neg hr] at h
        simp only [Except.ok.injEq, Prod.mk.injEq] at h
        push_neg at hr
        rw [← h.1, hget, hr]
    | some (Tree.file c) =>
      simp only [hget] at h
      match hl : linkAt r (d.removeAt p) p with
      | Except.error e => rw [hl] at h; exact Except.noConfusion h
      | Except.ok d₂ =>
        rw [hl] at h
        simp only [Except.ok.injEq, Prod.mk.injEq] at h
        rw [← h.1]
        exact linkAt_ok_get hl
    | some (Tree.dir cs) =>
      simp only [hget] at h
      match hl : linkAt r (d.removeAt p) p with
      | Except.error e => rw [hl] at h; exact Except.noConfusion h
      | Except.ok d₂ =>
        rw [hl] at h
        simp only [Except.ok.injEq, Prod.mk.injEq] at h
        rw [← h.1]
        exact linkAt_ok_get hl

/-- C5.  A repeated single-file `symlink` with unchanged resolved
source and destination performs zero filesystem mutations: the
second call returns the unchanged region and an empty mutation
list (the parent `mkdir` creates nothing and the link step takes the
target-equality no-op branch). -/
theorem C5_symlink_single_idempotent {ex : String → Bool} {r : String} {flags : Nat}
    {d d₁ : Tree} {p : Path} {evs : List Ev}
    (hexcl : hasFlag flags SYMLINK_EXCL = false) (hp : p ≠ [])
    (h : symlinkSingle ex r flags d p = Except.ok (d₁, evs)) :
    symlinkSingle ex r flags d₁ p = Except.ok (d₁, []) := by
  have hex : ex r = true := by
    by_contra hex
    simp only [symlinkSingle, if_neg hex] at h
    exact Except.noConfusion h
  simp only [symlinkSingle, hex, if_true, hexcl, Bool.false_eq_true, if_false] at h ⊢
  have hlink : d₁.get p = some (Tree.link r) := by
    match hmk : mkdirAt true d p.dropLast with
    | Except.error e => rw [hmk] at h; exact Except.noConfusion h
    | Except.ok (d₀, created) =>
      rw [hmk] at h
      simp only at h
      match hsf : __symlinkFileAt ex r flags d₀ p with
      | Except.error e => rw [hsf] at h; exact Except.noConfusion h
      | Except.ok (d₂, evs₂) =>
        rw [hsf] at h
        simp only [Except.ok.injEq, Prod.mk.injEq] at h
        rw [← h.1]
        exact symlinkFileAt_ok_link hsf
  obtain ⟨cs, hpar⟩ := get_parent_dir hp hlink
  rw [mkdirAt_noop hpar]
  have hsf₂ : __symlinkFileAt ex r flags d₁ p = Except.ok (d₁, []) := by
    simp [__symlinkFileAt, hexcl, existsSyncAt, hlink, hex]
  simp [hsf₂]

/-- Witness for C5: region with the destination's parent present,
link created fresh on the first call; the second call is a no-op. -/
theorem C5_symlink_single_idempotent_witness :
    hasFlag 0 SYMLINK_EXCL = false ∧
    symlinkSingle (fun _ => true) ("/src/f") 0 (Tree.dir [("keep", Tree.file ("k"))]) ["ln"] =
      Except.ok (Tree.dir [("keep", Tree.file ("k")), ("ln", Tree.link ("/src/f"))],
        [Ev.linkEv ("/src/f") ["ln"]]) ∧
    symlinkSingle (fun _ => true) ("/src/f") 0
      (Tree.dir [("keep", Tree.file ("k")), ("ln", Tree.link ("/src/f"))]) ["ln"] =
      Except.ok (Tree.dir [("keep", Tree.file ("k")), ("ln", Tree.link ("/src/f"))], []) := by
  have h : symlinkSingle (fun _ => true) ("/src/f") 0
      (Tree.dir [("keep", Tree.file ("k"))]) ["ln"] =
      Except.ok (Tree.dir [("keep", Tree.file ("k")), ("ln", Tree.link ("/src/f"))],
        [Ev.linkEv ("/src/f") ["ln"]]) := by
    simp [symlinkSingle, __symlinkFileAt, existsSyncAt, hasFlag, SYMLINK_EXCL, mkdirAt,
      linkAt, Tree.get, findChild]
  exact ⟨rfl, h, C5_symlink_single_idempotent rfl (by simp) h⟩

/-- C7.  Single-file symlink creation: when the destination does not
exist (and its parent directory does) the link is created — with or
without `SYMLINK_EXCL` — while with `SYMLINK_EXCL` an existing
destination makes the operation fail with `AlreadyExists`. -/
theorem C7_symlink_excl_collision :
    (∀ (ex : String → Bool) (r : String) (flags : Nat) (d : Tree) (p : Path)
       (cs : List (String × Tree)),
       d.get p = none → d.get p.dropLast = some (Tree.dir cs) →
       ∃ d', __symlinkFileAt ex r flags d p = Except.ok (d', [Ev.linkEv r p]) ∧
         d'.get p = some (Tree.link r)) ∧
    (∀ (ex : String → Bool) (r : String) (flags : Nat) (d : Tree) (p : Path),
       hasFlag flags SYMLINK_EXCL = true → d.get p ≠ none →
       __symlinkFileAt ex r flags d p = Except.error Err.AlreadyExists) := by
  constructor
  · intro ex r flags d p cs hget hpar
    obtain ⟨d', hd'⟩ := linkAt_create (r := r) hget hpar
    refine ⟨d', ?_, linkAt_ok_get hd'⟩
    simp only [__symlinkFileAt, existsSyncAt, hget, Bool.not_false, Bool.or_true,
      if_true, hd']
  · intro ex r flags d p hexcl hget
    simp only [__symlinkFileAt, hexcl, Bool.true_or, if_true, linkAt_present hget]

/-- Witness for C7: creation into an existing parent, and an
exclusive collision. -/
theorem C7_symlink_excl_collision_witness :
    (∃ d', __symlinkFileAt (fun _ => false) ("/s") 4 (Tree.dir [("x", Tree.file ("c"))]) ["y"] =
        Except.ok (d', [Ev.linkEv ("/s") ["y"]]) ∧
      d'.get ["y"] = some (Tree.link ("/s"))) ∧
    __symlinkFileAt (fun _ => false) ("/s") 4 (Tree.dir [("x", Tree.file ("c"))]) ["x"] =
      Except.error Err.AlreadyExists := by
  refine ⟨C7_symlink_excl_collision.1 (fun _ => false) ("/s") 4
      (Tree.dir [("x", Tree.file ("c"))]) ["y"]
      [("x", Tree.file ("c"))] (by simp [Tree.get, findChild]) (by simp [Tree.get]),
    C7_symlink_excl_collision.2 (fun _ => false) ("/s") 4 (Tree.dir [("x", Tree.file ("c"))])
      ["x"] rfl (by simp [Tree.get, findChild])⟩

/-- C8.  `remove` models `rmdir(path, { recursive: true })`: it
always resolves successfully, and removing an already-absent path
succeeds leaving the region untouched. -/
theorem C8_remove_absent_succeeds :
    (∀ (d : Tree) (p : Path), ∃ d', removeFs d p = Except.ok d') ∧
    (∀ (d : Tree) (p : Path), d.get p = none → removeFs d p = Except.ok d) := by
  refine ⟨fun d p => ⟨d.removeAt p, rfl⟩, fun d p h => ?_⟩
  simp only [removeFs, removeAt_absent h]

/-- Witness for C8: removing a non-existent path from a concrete
region succeeds and changes nothing. -/
theorem C8_remove_absent_succeeds_witness :
    Tree.get (Tree.dir [("a", Tree.file ("c"))]) ["nope"] = none ∧
    removeFs (Tree.dir [("a", Tree.file ("c"))]) ["nope"] =
      Except.ok (Tree.dir [("a", Tree.file ("c"))]) := by
  have h : Tree.get (Tree.dir [("a", Tree.file ("c"))]) ["nope"] = none := by
    simp [Tree.get, findChild]
  exact ⟨h, C8_remove_absent_succeeds.2 (Tree.dir [("a", Tree.file ("c"))]) ["nope"] h⟩

theorem symlinkFileAt_zero_collision_iff {ex : String → Bool} {r : String} {d : Tree}
    {p : Path} (hp : p ≠ []) :
    __symlinkFileAt ex r 0 d p = Except.error Err.AlreadyExists ↔
      ∃ tg, d.get p = some (Tree.link tg) ∧ ex tg = false := by
  have hexcl : hasFlag 0 SYMLINK_EXCL = false := rfl
  constructor
  · intro h
    match hget : d.get p with
    | none =>
      exfalso
      simp only [__symlinkFileAt, hexcl, Bool.false_or, existsSyncAt, hget,
        Bool.not_false, if_true] at h
      match hl : linkAt r d p with
      | Except.error e =>
        rw [hl] at h
        exact linkAt_no_collision hget (by rw [hl, (by injection h : e = Err.AlreadyExists)])
      | Except.ok d₂ => rw [hl] at h; exact Except.noConfusion h
    | some (Tree.link tgt) =>
      cases hextg : ex tgt with
      | false => exact ⟨tgt, rfl, hextg⟩
      | true =>
        exfalso
        simp only [__symlinkFileAt, hexcl, Bool.false_or, existsSyncAt, hget, hextg,
          Bool.not_true, Bool.false_eq_true, if_false] at h
        by_cases hr : r ≠ tgt
        · rw [if_pos hr] at h
          have hrm : (d.removeAt p).get p = none :=
            removeAt_get_of_prefix hp List.prefix_rfl
          match hl : linkAt r (d.removeAt p) p with
          | Except.error e =>
            rw [hl] at h
            exact linkAt_no_collision hrm
              (by rw [hl, (by injection h : e = Err.AlreadyExists)])
          | Except.ok d₂ => rw [hl] at h; exact Except.noConfusion h
        · rw [if_neg hr] at h
          exact Except.noConfusion h
    | some (Tree.file c) =>
      exfalso
      simp only [__symlinkFileAt, hexcl, Bool.false_or, existsSyncAt, hget,
        Bool.not_true, Bool.false_eq_true, if_false] at h
      have hrm : (d.removeAt p).get p = none :=
        removeAt_get_of_prefix hp List.prefix_rfl
      match hl : linkAt r (d.removeAt p) p with
      | Except.error e =>
        rw [hl] at h
        exact linkAt_no_collision hrm
          (by rw [hl, (by injection h : e = Err.AlreadyExists)])
      | Except.ok d₂ => rw [hl] at h; exact Except.noConfusion h
    | some (Tree.dir cs) =>
      exfalso
      simp only [__symlinkFileAt, hexcl, Bool.false_or, existsSyncAt, hget,
        Bool.not_true, Bool.false_eq_true, if_false] at h
      have hrm : (d.removeAt p).get p = none :=
        removeAt_get_of_prefix hp List.prefix_rfl
      match hl : linkAt r (d.removeAt p) p with
      | Except.error e =>
        rw [hl] at h
        exact linkAt_no_collision hrm
          (by rw [hl, (by injection h : e = Err.AlreadyExists)])
      | Except.ok d₂ => rw [hl] at h; exact Except.noConfusion h
  · rintro ⟨tg, hget, htg⟩
    have hgetne : d.get p ≠ none := by rw [hget]; exact fun hc => Option.noConfusion hc
    simp only [__symlinkFileAt, hexcl, Bool.false_or, existsSyncAt, hget, htg,
      Bool.not_false, if_true, linkAt_present hgetne]

/-- C10 counterexample.  A directory-mode symlink mirror CAN raise
`AlreadyExists` on a nested collision even without `SYMLINK_EXCL`:
here the destination holds a dangling symlink at the nested path, so
`existsSync` — which follows symlinks — reports it absent, the
per-file step takes the unconditional create branch, and the
underlying `symlink` call fails with `EEXIST` on the entry that is
still there. -/
theorem C10_counterexample :
    Tree.get (Tree.dir [("f", Tree.link ("/gone"))]) ["f"] = some (Tree.link ("/gone")) ∧
    hasFlag 0 SYMLINK_EXCL = false ∧
    __symlink (fun _ => false) (fun _ => ("/T")) (Tree.dir [("f", Tree.file ("c"))]) ("/s")
      (some (Tree.dir [("f", Tree.link ("/gone"))])) 0 =
      Except.error Err.AlreadyExists := by
  refine ⟨by simp [Tree.get, findChild], rfl, ?_⟩
  simp [__symlink, symlinkPrimary, hasFlag, SYMLINK_EXCL, SYMLINK_RMNONEXISTENT,
    mkdirRegion, walkChildren, symlinkWalker, __symlinkFileAt, existsSyncAt, joinStr,
    linkAt, Tree.get, findChild, replaceFirst]

/-- C10 amended.  In directory mode the per-file link step of
`__symlink`'s walker does not receive the mirror flags: its
behaviour on non-directory entries is independent of `SYMLINK_EXCL`
and the nested `__symlinkFile` call runs with coerced flags `0`
(idempotent-replace policy).  But not every nested collision is
safe: because `existsSync` follows symlinks, the per-file step
raises `AlreadyExists` exactly when the existing destination entry
is a symlink whose target does not exist (a dangling link); any
other existing entry is replaced or kept without that error. -/
theorem C10_nested_link_collision_characterized :
    (∀ (ex : String → Bool) (res : String → String) (src : String)
       (e₁ e₂ rec : Bool) (p : Path) (k : Kind) (st : SymSt), k ≠ Kind.dir →
       symlinkWalker ex res src e₁ rec p k st = symlinkWalker ex res src e₂ rec p k st) ∧
    (∀ (ex : String → Bool) (r : String) (d : Tree) (p : Path), p ≠ [] →
       (__symlinkFileAt ex r 0 d p = Except.error Err.AlreadyExists ↔
         ∃ tg, d.get p = some (Tree.link tg) ∧ ex tg = false)) := by
  constructor
  · intro ex res src e₁ e₂ rec p k st hk
    cases k with
    | dir => exact absurd rfl hk
    | file => rfl
    | link => rfl
  · intro ex r d p hp
    exact symlinkFileAt_zero_collision_iff hp

/-- Witness for C10 amended: the per-file step is flag-independent
at a concrete nested destination, and the collision characterization
instantiated at a dangling link. -/
theorem C10_nested_link_collision_characterized_witness :
    symlinkWalker (fun _ => false) (fun s => s) ("/s") true false ["f"] Kind.file
      ⟨Tree.dir [("f", Tree.link ("/gone"))], []⟩ =
    symlinkWalker (fun _ => false) (fun s => s) ("/s") false false ["f"] Kind.file
      ⟨Tree.dir [("f", Tree.link ("/gone"))], []⟩ ∧
    (__symlinkFileAt (fun _ => false) ("/s2") 0 (Tree.dir [("f", Tree.link ("/gone"))]) ["f"] =
        Except.error Err.AlreadyExists ↔
      ∃ tg, Tree.get (Tree.dir [("f", Tree.link ("/gone"))]) ["f"] = some (Tree.link tg) ∧
        (fun _ => false : String → Bool) tg = false) := by
  exact ⟨C10_nested_link_collision_characterized.1 (fun _ => false) (fun s => s) ("/s")
      true false false ["f"] Kind.file ⟨Tree.dir [("f", Tree.link ("/gone"))], []⟩ (by simp),
    C10_nested_link_collision_characterized.2 (fun _ => false) ("/s2")
      (Tree.dir [("f", Tree.link ("/gone"))]) ["f"] (by simp)⟩

end NdkFs
